import Mathlib

/-!
Verification of the milkup editing core (syntax-preserving Markdown parser,
decoration engine, source-view transform) against its natural-language
specification.

The TypeScript sources embedded here are:
  * `src/core/parser/index.ts` (class `MarkdownParser`),
  * `src/core/decorations/index.ts` (region scanning and visibility),
  * `src/core/plugins/source-view-transform.ts` (flatten / structure).

Modelling conventions:
  * JavaScript strings are modelled as `List Char` / `String`; the inputs in
    all concrete statements are ASCII, where JS UTF-16 indices and code-point
    indices agree.
  * Each JavaScript regular expression is embedded as an executable matcher
    that reproduces the engine's semantics for that concrete pattern
    (leftmost match, greedy/lazy quantifiers with backtracking, lookarounds,
    alternation order).  `RegExp.exec` loops with the `g` flag are embedded
    as a left-to-right scan that restarts after each match.
  * ProseMirror documents are modelled by the tree type `MNode` below; node
    positions, `nodeSize` and `resolve` follow ProseMirror's token counting.
  * The schema `milkupSchema` (src/core/schema) is not part of the given
    sources.  Modelled from the spec: every mark type named by the parser
    (`syntax_marker`, `strong`, `emphasis`, `code_inline`, `strikethrough`,
    `highlight`, `link`, `math_inline`) and every node type of the data
    model exists, so the optional-chaining mark lookups in the source always
    succeed.  Group ids produced by `generateCodeBlockId` etc. (timestamps
    plus randomness, used only for equality grouping and freshness) are
    modelled as sequential natural numbers threaded through the transform.
  * Recursive procedures are embedded with an explicit fuel argument; the
    public entry points supply fuel that is large enough for every input
    (the loops advance by at least one character or line per step).
-/

namespace Milkup

/-! ### Character and string utilities (JS semantics) -/

/-- Character at index `i`, like `s[i]` in JS (`none` past the end). -/
def cAt (cs : List Char) (i : Nat) : Option Char := cs.get? i

/-- Substring `[i, i+len)`, like `s.slice(i, i+len)`. -/
def sub (cs : List Char) (i len : Nat) : List Char := (cs.drop i).take len

/-- JS `\s` / `trim` whitespace (ASCII portion). -/
def isWsChar (c : Char) : Bool :=
  c == ' ' || c == '\t' || c == '\n' || c == '\r' || c == '\x0b' || c == '\x0c'

/-- JS `\w` word character: `[A-Za-z0-9_]`. -/
def isWordChar (c : Char) : Bool :=
  ('a' ≤ c && c ≤ 'z') || ('A' ≤ c && c ≤ 'Z') || ('0' ≤ c && c ≤ '9') || c == '_'

/-- JS `\d` digit. -/
def isDigitChar (c : Char) : Bool := '0' ≤ c && c ≤ '9'

/-- `pre` is a prefix of `cs`. -/
def startsWithL : List Char → List Char → Bool
  | [], _ => true
  | _ :: _, [] => false
  | p :: ps, c :: cs => p == c && startsWithL ps cs

/-- `suf` is a suffix of `cs`. -/
def endsWithL (suf cs : List Char) : Bool := startsWithL suf.reverse cs.reverse

/-- JS `String.prototype.trimEnd` (ASCII whitespace). -/
def trimEndL (cs : List Char) : List Char := (cs.reverse.dropWhile isWsChar).reverse

/-- JS `String.prototype.trim` (ASCII whitespace). -/
def trimL (cs : List Char) : List Char := trimEndL (cs.dropWhile isWsChar)

/-- A line is blank when `line.trim() === ""`. -/
def isBlank (cs : List Char) : Bool := trimL cs == []

/-- First `k ≥ start` with `p k`, trying `fuel` candidates (mirrors lazy
quantifier expansion: smallest witness wins). -/
def firstFrom (p : Nat → Bool) : Nat → Nat → Option Nat
  | _, 0 => none
  | k, fuel+1 => if p k then some k else firstFrom p (k+1) fuel

/-- Split a character list at every occurrence of `sep`
(JS `String.prototype.split` with a single-character separator:
always at least one piece, empty pieces preserved). -/
def splitChar (sep : Char) : List Char → List (List Char)
  | [] => [[]]
  | c :: cs =>
    let r := splitChar sep cs
    if c == sep then [] :: r
    else
      match r with
      | [] => [[c]]
      | p :: ps => (c :: p) :: ps

/-- Join pieces with a separator character (inverse of `splitChar`). -/
def joinChar (sep : Char) : List (List Char) → List Char
  | [] => []
  | [p] => p
  | p :: ps => p ++ sep :: joinChar sep ps

/-- `markdown.replace(/\r\n?/g, "\n")`: normalize CRLF and lone CR to LF. -/
def normalizeNewlines : List Char → List Char
  | [] => []
  | '\r' :: '\n' :: rest => '\n' :: normalizeNewlines rest
  | '\r' :: rest => '\n' :: normalizeNewlines rest
  | c :: rest => c :: normalizeNewlines rest

/-- `content.replace(/\n+$/, "")`: drop trailing newlines. -/
def stripTrailingNewlines (cs : List Char) : List Char :=
  (cs.reverse.dropWhile (· == '\n')).reverse

/-! ### Marks, attributes, document tree -/

/-- A ProseMirror mark as created by the milkup parser.  `name` is the mark
type name; the remaining fields model the attributes actually used
(`syntaxType` for `syntax_marker`, `href`/`title` for `link`, `content` for
`math_inline`); unused attributes stay at their defaults. -/
structure Mark where
  name : String
  syntaxType : String := ""
  href : String := ""
  title : String := ""
  content : String := ""
deriving DecidableEq, Repr

/-- Node attributes.  One record covers every node type; a node only reads
the fields its type defines, all others stay at schema defaults.  Block-group
ids (`cb_…`, `tb_…`, `hb_…`, `mb_…` strings in the source) are modelled as
`Option Nat` — only freshness and equality of ids are ever used. -/
structure Attrs where
  level : Nat := 0
  language : String := ""
  src : String := ""
  alt : String := ""
  title : String := ""
  ctype : String := ""
  ctitle : String := ""
  checked : Bool := false
  ostart : Nat := 1
  align : Option String := none
  codeBlockId : Option Nat := none
  lineIndex : Nat := 0
  totalLines : Nat := 0
  tableId : Option Nat := none
  tableRowIndex : Nat := 0
  tableTotalRows : Nat := 0
  htmlBlockId : Option Nat := none
  htmlBlockLineIndex : Nat := 0
  htmlBlockTotalLines : Nat := 0
  mathBlockId : Option Nat := none
  mathBlockLineIndex : Nat := 0
  mathBlockTotalLines : Nat := 0
  imageAttrs : Option (String × String × String) := none
  hrSource : Bool := false
deriving DecidableEq, Repr

mutual
/-- A ProseMirror node: a text run carrying marks, or an element node with a
type name, attributes and children. -/
inductive MNode where
  | text : String → List Mark → MNode
  | node : String → Attrs → MList → MNode
deriving Repr
/-- Children list (a separate inductive so that structural recursion over
the tree stays kernel-reducible). -/
inductive MList where
  | nil : MList
  | cons : MNode → MList → MList
deriving Repr
end

namespace MList

def ofList : List MNode → MList
  | [] => .nil
  | n :: ns => .cons n (ofList ns)

def toList : MList → List MNode
  | .nil => []
  | .cons n ns => n :: toList ns

end MList

mutual
def mnodeDecEq : (a b : MNode) → Decidable (a = b)
  | .text s m, .text t n =>
    if h : s = t ∧ m = n then .isTrue (by rw [h.1, h.2])
    else .isFalse (by intro hc; cases hc; exact h ⟨rfl, rfl⟩)
  | .text _ _, .node _ _ _ => .isFalse (by intro hc; cases hc)
  | .node _ _ _, .text _ _ => .isFalse (by intro hc; cases hc)
  | .node t₁ a₁ c₁, .node t₂ a₂ c₂ =>
    if h : t₁ = t₂ ∧ a₁ = a₂ then
      match mlistDecEq c₁ c₂ with
      | .isTrue h₂ => .isTrue (by rw [h.1, h.2, h₂])
      | .isFalse h₂ => .isFalse (by intro hc; cases hc; exact h₂ rfl)
    else .isFalse (by intro hc; cases hc; exact h ⟨rfl, rfl⟩)
def mlistDecEq : (a b : MList) → Decidable (a = b)
  | .nil, .nil => .isTrue rfl
  | .nil, .cons _ _ => .isFalse (by intro hc; cases hc)
  | .cons _ _, .nil => .isFalse (by intro hc; cases hc)
  | .cons x xs, .cons y ys =>
    match mnodeDecEq x y with
    | .isTrue h₁ =>
      match mlistDecEq xs ys with
      | .isTrue h₂ => .isTrue (by rw [h₁, h₂])
      | .isFalse h₂ => .isFalse (by intro hc; cases hc; exact h₂ rfl)
    | .isFalse h₁ => .isFalse (by intro hc; cases hc; exact h₁ rfl)
end

instance : DecidableEq MNode := mnodeDecEq
instance : DecidableEq MList := mlistDecEq

/-- Build an element node from a `List` of children. -/
def mk (t : String) (a : Attrs) (cs : List MNode) : MNode :=
  MNode.node t a (MList.ofList cs)

/-- Plain text node without marks. -/
def txt (s : String) : MNode := MNode.text s []

/-- An empty paragraph (`schema.node("paragraph")`). -/
def emptyPara : MNode := mk "paragraph" {} []

/-- The marks carried by a node (non-text nodes carry none in milkup). -/
def nodeMarks : MNode → List Mark
  | .text _ ms => ms
  | .node _ _ _ => []

mutual
/-- `node.textContent`: concatenation of all text leaves. -/
def textContent : MNode → String
  | .text s _ => s
  | .node _ _ cs => textContentList cs
def textContentList : MList → String
  | .nil => ""
  | .cons c cs => textContent c ++ textContentList cs
end

/-! ### Inline syntax matchers

Each entry of `INLINE_SYNTAXES` in `src/core/parser/index.ts` is embedded as
a matcher `tryX cs i` that decides whether the regex matches at start
position `i` of `cs`, returning the same capture data the source extracts
(prefix, content, suffix, attributes).  Scanning with the `g` flag is the
leftmost-restart loop `findAllWith`. -/

/-- One candidate inline match: syntax type, start, length, and the
prefix/content/suffix plus attributes the source computes from the match. -/
structure MatchInfo where
  mtype : String
  mstart : Nat
  mlen : Nat
  pre : String
  content : String
  suf : String
  ahref : String := ""
  atitle : String := ""
  acontent : String := ""
deriving DecidableEq, Repr

/-- End position of a match (`match.index + match[0].length`). -/
def MatchInfo.mend (m : MatchInfo) : Nat := m.mstart + m.mlen

/-- Negative lookbehind: true when `i = 0` or the char before `i` does not
satisfy `bad`. -/
def lookbehindNot (cs : List Char) (i : Nat) (bad : Char → Bool) : Bool :=
  if i = 0 then true
  else
    match cAt cs (i-1) with
    | some c => !(bad c)
    | none => true

/-- Negative lookahead: true when the char at `j` (if any) does not satisfy
`bad`. -/
def lookaheadNot (cs : List Char) (j : Nat) (bad : Char → Bool) : Bool :=
  match cAt cs j with
  | some c => !(bad c)
  | none => true

/-- `(\*\*\*|___)(.+?)\1` at position `i`, one alternative `d` of the
backreferenced delimiter: lazy content of minimal length `k ≥ 1` (no
newline, `.` does not match `\n`) closed by the same delimiter. -/
def strongEmphDelim (cs : List Char) (i : Nat) (d : List Char) : Option MatchInfo :=
  if sub cs i 3 = d then
    match firstFrom
        (fun k => decide (sub cs (i+3+k) 3 = d ∧ '\n' ∉ sub cs (i+3) k))
        1 (cs.length + 1) with
    | some k =>
      some { mtype := "strong_emphasis", mstart := i, mlen := k + 6,
             pre := ⟨d⟩, content := ⟨sub cs (i+3) k⟩, suf := ⟨d⟩ }
    | none => none
  else none

/-- The `strong_emphasis` pattern `(\*\*\*|___)(.+?)\1`; the `***`
alternative is tried first. -/
def tryStrongEmph (cs : List Char) (i : Nat) : Option MatchInfo :=
  match strongEmphDelim cs i ['*', '*', '*'] with
  | some m => some m
  | none => strongEmphDelim cs i ['_', '_', '_']

/-- One alternative of the `strong` pattern
`(?<!\*)(\*\*)(?!\*)(.+?)(?<!\*)\1(?!\*)` with delimiter character `dc`
(`*` or `_`). -/
def strongDelim (cs : List Char) (i : Nat) (dc : Char) : Option MatchInfo :=
  if lookbehindNot cs i (· == dc) && decide (cAt cs i = some dc ∧ cAt cs (i+1) = some dc)
      && lookaheadNot cs (i+2) (· == dc) then
    match firstFrom
        (fun k => decide (cAt cs (i+1+k) ≠ some dc ∧ cAt cs (i+2+k) = some dc ∧
            cAt cs (i+3+k) = some dc ∧ '\n' ∉ sub cs (i+2) k) &&
          lookaheadNot cs (i+4+k) (· == dc))
        1 (cs.length + 1) with
    | some k =>
      some { mtype := "strong", mstart := i, mlen := k + 4,
             pre := ⟨[dc, dc]⟩, content := ⟨sub cs (i+2) k⟩, suf := ⟨[dc, dc]⟩ }
    | none => none
  else none

/-- The `strong` pattern; the `**` alternative is tried before `__`. -/
def tryStrong (cs : List Char) (i : Nat) : Option MatchInfo :=
  match strongDelim cs i '*' with
  | some m => some m
  | none => strongDelim cs i '_'

/-- True when a character exists at `j` and does not satisfy `bad`
(a consuming position whose char additionally passes a lookaround). -/
def charAtNot (cs : List Char) (j : Nat) (bad : Char → Bool) : Bool :=
  match cAt cs j with
  | some c => !(bad c)
  | none => false

/-- The `*` alternative of the `emphasis` pattern
`(?<![*_\w])(\*)(?![*\s])(.+?)(?<![*\s])\1(?![*])`. -/
def emphStar (cs : List Char) (i : Nat) : Option MatchInfo :=
  if lookbehindNot cs i (fun c => c == '*' || c == '_' || isWordChar c)
      && decide (cAt cs i = some '*')
      && lookaheadNot cs (i+1) (fun c => c == '*' || isWsChar c) then
    match firstFrom
        (fun k => charAtNot cs (i+k) (fun c => c == '*' || isWsChar c) &&
          decide (cAt cs (i+1+k) = some '*' ∧ '\n' ∉ sub cs (i+1) k) &&
          lookaheadNot cs (i+2+k) (· == '*'))
        1 (cs.length + 1) with
    | some k =>
      some { mtype := "emphasis", mstart := i, mlen := k + 2,
             pre := "*", content := ⟨sub cs (i+1) k⟩, suf := "*" }
    | none => none
  else none

/-- The `_` alternative of the `emphasis` pattern
`(?<![*_])(_)(?![_\s])(?=\S)(.+?)(?<=\S)(?<![_\s])\3(?![_\w])`. -/
def emphUnderscore (cs : List Char) (i : Nat) : Option MatchInfo :=
  if lookbehindNot cs i (fun c => c == '*' || c == '_')
      && decide (cAt cs i = some '_')
      && charAtNot cs (i+1) (fun c => c == '_' || isWsChar c) then
    match firstFrom
        (fun k => charAtNot cs (i+k) (fun c => c == '_' || isWsChar c) &&
          decide (cAt cs (i+1+k) = some '_' ∧ '\n' ∉ sub cs (i+1) k) &&
          lookaheadNot cs (i+2+k) (fun c => c == '_' || isWordChar c))
        1 (cs.length + 1) with
    | some k =>
      some { mtype := "emphasis", mstart := i, mlen := k + 2,
             pre := "_", content := ⟨sub cs (i+1) k⟩, suf := "_" }
    | none => none
  else none

/-- The `emphasis` pattern (alternation: `*` branch first, then `_`). -/
def tryEmph (cs : List Char) (i : Nat) : Option MatchInfo :=
  match emphStar cs i with
  | some m => some m
  | none => emphUnderscore cs i

/-- The `code_inline` pattern ``​`([^`]+)`​``: a backtick, a maximal
nonempty run of non-backticks, a closing backtick. -/
def tryCodeInline (cs : List Char) (i : Nat) : Option MatchInfo :=
  if cAt cs i = some '`' then
    let run := ((cs.drop (i+1)).takeWhile (fun c => !(c == '`'))).length
    if 1 ≤ run ∧ cAt cs (i+1+run) = some '`' then
      some { mtype := "code_inline", mstart := i, mlen := run + 2,
             pre := "`", content := ⟨sub cs (i+1) run⟩, suf := "`" }
    else none
  else none

/-- A two-character paired pattern `dd(.+?)dd` (used by `strikethrough`
`~~(.+?)~~` and `highlight` `==(.+?)==`). -/
def tryPair (dc : Char) (tname : String) (cs : List Char) (i : Nat) : Option MatchInfo :=
  if cAt cs i = some dc ∧ cAt cs (i+1) = some dc then
    match firstFrom
        (fun k => decide (cAt cs (i+2+k) = some dc ∧ cAt cs (i+3+k) = some dc ∧
          '\n' ∉ sub cs (i+2) k))
        1 (cs.length + 1) with
    | some k =>
      some { mtype := tname, mstart := i, mlen := k + 4,
             pre := ⟨[dc, dc]⟩, content := ⟨sub cs (i+2) k⟩, suf := ⟨[dc, dc]⟩ }
    | none => none
  else none

def tryStrike (cs : List Char) (i : Nat) : Option MatchInfo :=
  tryPair '~' "strikethrough" cs i

def tryHighlight (cs : List Char) (i : Nat) : Option MatchInfo :=
  tryPair '=' "highlight" cs i

/-- One unit of the link-target class `(?:[^)\s\\]|\\.)`: either a single
character that is not `)`, whitespace or `\`, or a backslash escape pair
(`.` excludes newline).  Returns the token length. -/
def linkUrlToken (cs : List Char) (p : Nat) : Option Nat :=
  match cAt cs p with
  | none => none
  | some '\\' =>
    match cAt cs (p+1) with
    | some c => if c = '\n' then none else some 2
    | none => none
  | some c => if c = ')' ∨ isWsChar c = true then none else some 1

/-- After the greedy URL tokens: the optional title group
`(?:\s+"([^"]*)")?` (greedy: taken when it fits) followed by `\)`.
Returns the captured title (if any) and the end position just past `)`. -/
def linkFinish (cs : List Char) (p : Nat) : Option (Option (List Char) × Nat) :=
  let wsrun := ((cs.drop p).takeWhile isWsChar).length
  let withTitle :=
    if 1 ≤ wsrun ∧ cAt cs (p + wsrun) = some '"' then
      let trun := ((cs.drop (p + wsrun + 1)).takeWhile (fun c => !(c == '"'))).length
      if cAt cs (p + wsrun + 1 + trun) = some '"' ∧
          cAt cs (p + wsrun + 2 + trun) = some ')' then
        some (some (sub cs (p + wsrun + 1) trun), p + wsrun + 3 + trun)
      else none
    else none
  match withTitle with
  | some r => some r
  | none => if cAt cs p = some ')' then some (none, p + 1) else none

/-- Greedy matching of `((?:[^)\s\\]|\\.)+)` with backtracking: consume as
many tokens as possible first, fall back token by token until the tail
(`linkFinish`) matches.  Returns (end of URL, title, end of whole match). -/
def linkUrl (cs : List Char) : Nat → Nat → Nat → Option (Nat × Option (List Char) × Nat)
  | _, _, 0 => none
  | p, consumed, fuel+1 =>
    match linkUrlToken cs p with
    | some tl =>
      match linkUrl cs (p + tl) (consumed + 1) fuel with
      | some r => some r
      | none =>
        match linkFinish cs (p + tl) with
        | some (t, e) => some (p + tl, t, e)
        | none => none
    | none =>
      if 1 ≤ consumed then
        match linkFinish cs p with
        | some (t, e) => some (p, t, e)
        | none => none
      else none

/-- `href` attribute: `m[2].replace(/\\([()])/g, "$1")`. -/
def unescapeParens : List Char → List Char
  | '\\' :: '(' :: r => '(' :: unescapeParens r
  | '\\' :: ')' :: r => ')' :: unescapeParens r
  | c :: r => c :: unescapeParens r
  | [] => []

/-- The `link` pattern
`(?<!!)\[([^\]]+)\]\(((?:[^)\s\\]|\\.)+)(?:\s+"([^"]*)")?\)` together with
the source's prefix/suffix/attribute extraction (the suffix is rebuilt as
`](url …)`, the title part only when the captured title is truthy). -/
def tryLink (cs : List Char) (i : Nat) : Option MatchInfo :=
  if lookbehindNot cs i (· == '!') && decide (cAt cs i = some '[') then
    let arun := ((cs.drop (i+1)).takeWhile (fun c => !(c == ']'))).length
    if 1 ≤ arun ∧ cAt cs (i+1+arun) = some ']' ∧ cAt cs (i+2+arun) = some '(' then
      match linkUrl cs (i+3+arun) 0 (cs.length + 1) with
      | some (urlEnd, tit, endPos) =>
        let url : List Char := sub cs (i+3+arun) (urlEnd - (i+3+arun))
        let titleS : String := match tit with | some t => ⟨t⟩ | none => ""
        let sufS : String :=
          "](" ++ (⟨url⟩ : String) ++
            (if titleS ≠ "" then " \"" ++ titleS ++ "\"" else "") ++ ")"
        some { mtype := "link", mstart := i, mlen := endPos - i,
               pre := "[", content := ⟨sub cs (i+1) arun⟩, suf := sufS,
               ahref := ⟨unescapeParens url⟩, atitle := titleS }
      | none => none
    else none
  else none

/-- The `math_inline` pattern `(?<!\$)\$(?!\$)([^$]+)\$(?!\$)`. -/
def tryMathInline (cs : List Char) (i : Nat) : Option MatchInfo :=
  if lookbehindNot cs i (· == '$') && decide (cAt cs i = some '$') then
    let run := ((cs.drop (i+1)).takeWhile (fun c => !(c == '$'))).length
    if 1 ≤ run ∧ cAt cs (i+1+run) = some '$' ∧ cAt cs (i+2+run) ≠ some '$' then
      some { mtype := "math_inline", mstart := i, mlen := run + 2,
             pre := "$", content := ⟨sub cs (i+1) run⟩, suf := "$",
             acontent := ⟨sub cs (i+1) run⟩ }
    else none
  else none

/-- Generic `g`-flag scan: try the matcher at every position from left to
right, restarting after the end of each match (all patterns here only
produce nonempty matches). -/
def scanWith {α} (tryAt : Nat → Option α) (lenOf : α → Nat) : Nat → Nat → List α
  | 0, _ => []
  | fuel+1, i =>
    match tryAt i with
    | some m => m :: scanWith tryAt lenOf fuel (i + max (lenOf m) 1)
    | none => scanWith tryAt lenOf fuel (i + 1)

/-- All matches of one inline matcher over `cs` in document order. -/
def findAllWith (tryAt : List Char → Nat → Option MatchInfo) (cs : List Char) :
    List MatchInfo :=
  scanWith (tryAt cs) MatchInfo.mlen (cs.length + 1) 0

/-- The escape pattern `\\([\\`*_{}[\]()#+\-.!|~=$>])` as character set. -/
def escChars : List Char := "\\`*_{}[]()#+-.!|~=$>".data

/-- A single escape match at position `i`: backslash followed by a
special character; records `(index, escaped char)`. -/
def tryEscape (cs : List Char) (i : Nat) : Option (Nat × Char) :=
  if cAt cs i = some '\\' then
    match cAt cs (i+1) with
    | some c => if c ∈ escChars then some (i, c) else none
    | none => none
  else none

/-- All escape matches of `ESCAPE_RE` over `cs`. -/
def findEscapes (cs : List Char) : List (Nat × Char) :=
  scanWith (tryEscape cs) (fun _ => 2) (cs.length + 1) 0

/-! ### `parseInlineWithSyntax` -/

/-- The `syntax_marker` mark with a given `syntaxType`. -/
def syntaxMarker (t : String) : Mark := { name := "syntax_marker", syntaxType := t }

/-- The semantic content mark(s) a kept match contributes:
`strong_emphasis` folds to `strong` + `emphasis`; every other type yields
the mark of its own name with the extracted attributes. -/
def contentMarksOf (m : MatchInfo) : List Mark :=
  if m.mtype = "strong_emphasis" then [{ name := "strong" }, { name := "emphasis" }]
  else if m.mtype = "link" then [{ name := "link", href := m.ahref, title := m.atitle }]
  else if m.mtype = "math_inline" then [{ name := "math_inline", content := m.acontent }]
  else [{ name := m.mtype }]

/-- All candidate matches of every inline syntax over `cs`, in the priority
order of `INLINE_SYNTAXES`, each list filtered by the source's
`if (!prefix || !content) continue` degeneracy check. -/
def collectMatches (cs : List Char) : List MatchInfo :=
  let keep := fun (m : MatchInfo) => decide (m.pre ≠ "" ∧ m.content ≠ "")
  ((findAllWith tryStrongEmph cs).filter keep) ++
  ((findAllWith tryStrong cs).filter keep) ++
  ((findAllWith tryEmph cs).filter keep) ++
  ((findAllWith tryCodeInline cs).filter keep) ++
  ((findAllWith tryStrike cs).filter keep) ++
  ((findAllWith tryHighlight cs).filter keep) ++
  ((findAllWith tryLink cs).filter keep) ++
  ((findAllWith tryMathInline cs).filter keep)

/-- Strict comparator of the sort in `parseInlineWithSyntax`: by start
ascending, then end descending. -/
def matchLt (a b : MatchInfo) : Bool :=
  a.mstart < b.mstart || (a.mstart == b.mstart && b.mend < a.mend)

/-- Stable insertion into a sorted list: `x` goes before the first element
that is not strictly smaller (so elements comparing equal keep their
original relative order, as `Array.prototype.sort` is stable). -/
def insertSorted (x : MatchInfo) : List MatchInfo → List MatchInfo
  | [] => [x]
  | y :: ys => if matchLt y x then y :: insertSorted x ys else x :: y :: ys

/-- Stable sort by (start ascending, end descending). -/
def sortMatches (ms : List MatchInfo) : List MatchInfo := ms.foldr insertSorted []

/-- The greedy overlap filter: keep a match only when it starts at or after
the end of the last kept match (`lastEnd` starts at 0). -/
def filterGreedy : List MatchInfo → Nat → List MatchInfo
  | [], _ => []
  | m :: ms, lastEnd =>
    if lastEnd ≤ m.mstart then m :: filterGreedy ms m.mend
    else filterGreedy ms lastEnd

/-- The protected ranges of `parseInlineWithSyntax`: all raw link and
inline-math matches (escapes inside them are not treated as Markdown
escapes). -/
def protectedRanges (cs : List Char) : List (Nat × Nat) :=
  ((findAllWith tryLink cs).map (fun m => (m.mstart, m.mend))) ++
  ((findAllWith tryMathInline cs).map (fun m => (m.mstart, m.mend)))

/-- Escape matches outside every protected range
(`escMatch.index >= r.start && escMatch.index + 2 <= r.end` excludes). -/
def escapesOutside (cs : List Char) : List (Nat × Char) :=
  let prot := protectedRanges cs
  (findEscapes cs).filter
    (fun e => !(prot.any (fun r => decide (r.1 ≤ e.1 ∧ e.1 + 2 ≤ r.2))))

/-- Call frames of the mutually recursive inline parser, defunctionalized so
that the whole recursion is structural on one fuel counter (and therefore
kernel-reducible).  `top` is `parseInlineWithSyntax`, `escLoop` the loop of
`parseInlineWithEscapes`, `buildLoop` the node-building loop over the kept
matches. -/
inductive InlineCall where
  | top (cs : List Char) (inherited : List Mark)
  | escLoop (cs : List Char) (inherited : List Mark)
      (escs : List (Nat × Char)) (pos : Nat)
  | buildLoop (cs : List Char) (inherited : List Mark)
      (ms : List MatchInfo) (pos : Nat)

/-- The inline parser.  Mirrors `parseInlineWithSyntax` /
`parseInlineWithEscapes`: empty text yields no nodes; if any unprotected
escapes exist the text is split at them (each escape emits a
`syntax_marker(escape)`-tagged backslash and a plain escaped character);
otherwise the candidate matches are collected, sorted, greedily filtered
and emitted as prefix / recursive content / suffix runs. -/
def parseInlineCore : Nat → InlineCall → List MNode
  | 0, _ => []
  | fuel+1, .top cs inherited =>
    if cs = [] then []
    else
      let escs := escapesOutside cs
      if escs ≠ [] then parseInlineCore fuel (.escLoop cs inherited escs 0)
      else
        let filtered := filterGreedy (sortMatches (collectMatches cs)) 0
        parseInlineCore fuel (.buildLoop cs inherited filtered 0)
  | fuel+1, .escLoop cs inherited escs pos =>
    match escs with
    | [] =>
      if pos < cs.length then
        parseInlineCore fuel (.top (cs.drop pos) inherited)
      else []
    | e :: rest =>
      (if pos < e.1 then
        parseInlineCore fuel (.top (sub cs pos (e.1 - pos)) inherited)
      else []) ++
      [MNode.text "\\" (inherited ++ [syntaxMarker "escape"]),
       MNode.text ⟨[e.2]⟩ inherited] ++
      parseInlineCore fuel (.escLoop cs inherited rest (e.1 + 2))
  | fuel+1, .buildLoop cs inherited ms pos =>
    match ms with
    | [] =>
      if pos < cs.length then [MNode.text ⟨cs.drop pos⟩ inherited] else []
    | m :: rest =>
      let contentMarks := contentMarksOf m
      let allContentMarks := inherited ++ contentMarks
      let boundaryMarks := inherited ++ [syntaxMarker m.mtype] ++ contentMarks
      let inner := parseInlineCore fuel (.top m.content.data allContentMarks)
      (if pos < m.mstart then [MNode.text ⟨sub cs pos (m.mstart - pos)⟩ inherited] else []) ++
      [MNode.text m.pre boundaryMarks] ++
      (if inner ≠ [] then inner
       else if m.content ≠ "" then [MNode.text m.content allContentMarks] else []) ++
      [MNode.text m.suf boundaryMarks] ++
      parseInlineCore fuel (.buildLoop cs inherited rest m.mend)

/-- Fuel that is always sufficient for `parseInlineCore` on `cs`: each frame
either consumes a list element or recurses into strictly shorter text. -/
def inlineFuel (cs : List Char) : Nat := (cs.length + 2) * (cs.length + 2) * 4 + 14 + 2

/-- `parseInlineWithSyntax(text, inheritedMarks)`. -/
def parseInlineWithSyntax (cs : List Char) (inherited : List Mark := []) : List MNode :=
  parseInlineCore (inlineFuel cs) (.top cs inherited)

/-! ### Block-level patterns (`BLOCK_PATTERNS`) -/

def isAsciiAlpha (c : Char) : Bool := ('a' ≤ c && c ≤ 'z') || ('A' ≤ c && c ≤ 'Z')
def isAsciiAlphaNum (c : Char) : Bool := isAsciiAlpha c || isDigitChar c

/-- `heading: /^(#{1,6})\s+(.*)$/` → (hashes, content).  With more than six
leading `#` every shorter hash prefix is followed by another `#`, not
whitespace, so the pattern fails. -/
def matchHeading (cs : List Char) : Option (List Char × List Char) :=
  let hashes := cs.takeWhile (· == '#')
  let r := cs.drop hashes.length
  let ws := r.takeWhile isWsChar
  if 1 ≤ hashes.length ∧ hashes.length ≤ 6 ∧ 1 ≤ ws.length then
    some (hashes, r.drop ws.length)
  else none

/-- `code_block_start: /^(\s*)```([^\s`]*)(.*)$/` →
(fence indent, language, trailing attributes). -/
def matchCodeStart (cs : List Char) : Option (Nat × List Char × List Char) :=
  let ws := cs.takeWhile isWsChar
  let r := cs.drop ws.length
  if startsWithL ['`', '`', '`'] r then
    let r2 := r.drop 3
    let lang := r2.takeWhile (fun c => !(isWsChar c) && !(c == '`'))
    some (ws.length, lang, r2.drop lang.length)
  else none

/-- `code_block_end: /^\s*```\s*$/`. -/
def isCodeEnd (cs : List Char) : Bool :=
  let r := cs.dropWhile isWsChar
  startsWithL ['`', '`', '`'] r && isBlank (r.drop 3)

/-- `blockquote: /^>\s?(.*)$/` → captured content. -/
def matchBlockquote (cs : List Char) : Option (List Char) :=
  match cs with
  | '>' :: rest =>
    match rest with
    | c :: r2 => if isWsChar c then some r2 else some rest
    | [] => some []
  | _ => none

/-- `bullet_list: /^(\s*)([-*+])\s+(.*)$/` → (indent, marker, content). -/
def matchBullet (cs : List Char) : Option (Nat × Char × List Char) :=
  let ws := cs.takeWhile isWsChar
  match cs.drop ws.length with
  | m :: rest =>
    if m = '-' ∨ m = '*' ∨ m = '+' then
      let ws2 := rest.takeWhile isWsChar
      if 1 ≤ ws2.length then some (ws.length, m, rest.drop ws2.length) else none
    else none
  | [] => none

/-- `ordered_list: /^(\s*)(\d+)\.\s+(.*)$/` → (indent, digits, content). -/
def matchOrdered (cs : List Char) : Option (Nat × List Char × List Char) :=
  let ws := cs.takeWhile isWsChar
  let r := cs.drop ws.length
  let digits := r.takeWhile isDigitChar
  if 1 ≤ digits.length then
    match r.drop digits.length with
    | '.' :: rest =>
      let ws2 := rest.takeWhile isWsChar
      if 1 ≤ ws2.length then some (ws.length, digits, rest.drop ws2.length) else none
    | _ => none
  else none

/-- `task_item: /^(\s*)[-*+]\s+\[([ xX]?)\]\s+(.*)$/` →
(indent, checkbox capture, content). -/
def matchTask (cs : List Char) : Option (Nat × List Char × List Char) :=
  let ws := cs.takeWhile isWsChar
  match cs.drop ws.length with
  | m :: rest =>
    if m = '-' ∨ m = '*' ∨ m = '+' then
      let ws2 := rest.takeWhile isWsChar
      let finish := fun (box : List Char) (after : List Char) =>
        let ws3 := after.takeWhile isWsChar
        if 1 ≤ ws3.length then some (ws.length, box, after.drop ws3.length) else none
      if 1 ≤ ws2.length then
        match rest.drop ws2.length with
        | '[' :: r2 =>
          match r2 with
          | [] => none
          | c :: r3 =>
            if c = ' ' ∨ c = 'x' ∨ c = 'X' then
              match r3 with
              | ']' :: r4 => finish [c] r4
              | _ => none
            else if c = ']' then finish [] r3
            else none
        | _ => none
      else none
    else none
  | [] => none

/-- `horizontal_rule: /^([-*_]){3,}\s*$/` (the class characters may mix). -/
def isHr (cs : List Char) : Bool :=
  let run := cs.takeWhile (fun c => c == '-' || c == '*' || c == '_')
  3 ≤ run.length && isBlank (cs.drop run.length)

/-- `table_row: /^\|(.+)\|\s*$/`. -/
def isTableRow (cs : List Char) : Bool :=
  let t := trimEndL cs
  startsWithL ['|'] t && endsWithL ['|'] t && decide (3 ≤ t.length)

/-- `table_separator: /^\|[-:\s|]+\|\s*$/`. -/
def isTableSep (cs : List Char) : Bool :=
  let t := trimEndL cs
  startsWithL ['|'] t && endsWithL ['|'] t && decide (3 ≤ t.length) &&
    ((t.drop 1).dropLast.all (fun c => c == '-' || c == ':' || isWsChar c || c == '|'))

/-- `math_block_start` / `math_block_end`: `/^\s*\$\$\s*$/`. -/
def isMathFence (cs : List Char) : Bool := trimL cs == ['$', '$']

/-- `math_block_inline: /^\s*\$\$(.+)\$\$\s*$/` → content (the greedy `.+`
keeps everything up to the last `$$` that only has whitespace after it). -/
def matchMathInlineBlock (cs : List Char) : Option (List Char) :=
  let r := cs.dropWhile isWsChar
  if startsWithL ['$', '$'] r then
    let u := trimEndL (r.drop 2)
    if endsWithL ['$', '$'] u ∧ 3 ≤ u.length ∧ '\n' ∉ u.take (u.length - 2) then
      some (u.take (u.length - 2))
    else none
  else none

/-- Tail of the image pattern after the lazy `src`:
`(?:\s+"([^"]*)")?\)\s*$` (title variant preferred, as the optional group is
greedy).  Returns the captured title when present. -/
def imgTail (rest : List Char) : Option (Option (List Char)) :=
  let wsr := rest.takeWhile isWsChar
  let withTitle :=
    if 1 ≤ wsr.length then
      match rest.drop wsr.length with
      | '"' :: r3 =>
        let t := r3.takeWhile (fun c => !(c == '"'))
        match r3.drop t.length with
        | '"' :: ')' :: r4 => if isBlank r4 then some (some t) else none
        | _ => none
      | _ => none
    else none
  match withTitle with
  | some r => some r
  | none =>
    match rest with
    | ')' :: r4 => if isBlank r4 then some none else none
    | _ => none

/-- `image: /^!\[([^\]]*)\]\((.+?)(?:\s+"([^"]*)")?\)\s*$/` →
(alt, src, title).  The lazy `src` takes the smallest length whose tail
matches. -/
def matchImageLine (cs : List Char) : Option (String × String × String) :=
  match cs with
  | '!' :: '[' :: r =>
    let alt := r.takeWhile (fun c => !(c == ']'))
    match r.drop alt.length with
    | ']' :: '(' :: r2 =>
      match firstFrom
          (fun k => (imgTail (r2.drop k)).isSome && decide ('\n' ∉ r2.take k))
          1 (cs.length + 1) with
      | some k =>
        match imgTail (r2.drop k) with
        | some tit =>
          some (⟨alt⟩, ⟨r2.take k⟩, match tit with | some t => ⟨t⟩ | none => "")
        | none => none
      | none => none
    | _ => none
  | _ => none

/-- `container_start: /^:::(\w+)(?:\s+(.*))?$/` → (type, title). -/
def matchContainerStart (cs : List Char) : Option (String × String) :=
  if startsWithL [':', ':', ':'] cs then
    let r := cs.drop 3
    let w := r.takeWhile isWordChar
    if 1 ≤ w.length then
      let rest := r.drop w.length
      if rest = [] then some (⟨w⟩, "")
      else
        let wsr := rest.takeWhile isWsChar
        if 1 ≤ wsr.length then some (⟨w⟩, ⟨rest.drop wsr.length⟩) else none
    else none
  else none

/-- `container_end: /^:::\s*$/`. -/
def isContainerEnd (cs : List Char) : Bool :=
  startsWithL [':', ':', ':'] cs && isBlank (cs.drop 3)

/-- `html_block_start: /^<([a-zA-Z][a-zA-Z0-9]*)/` → tag name. -/
def matchHtmlStart (cs : List Char) : Option (List Char) :=
  match cs with
  | '<' :: c :: r =>
    if isAsciiAlpha c then some (c :: r.takeWhile isAsciiAlphaNum) else none
  | _ => none

/-! ### HTML tag search helpers (case-insensitive `test`) -/

def toLowerCh (c : Char) : Char :=
  if 'A' ≤ c ∧ c ≤ 'Z' then Char.ofNat (c.toNat + 32) else c

def lowerS (cs : List Char) : List Char := cs.map toLowerCh

/-- Case-insensitive prefix test. -/
def ciPrefix : List Char → List Char → Bool
  | [], _ => true
  | _ :: _, [] => false
  | p :: ps, c :: cs => toLowerCh p == toLowerCh c && ciPrefix ps cs

/-- The close pattern `</tag\s*>` matches at position `i`. -/
def closeTagAt (cs tag : List Char) (i : Nat) : Bool :=
  match cs.drop i with
  | '<' :: '/' :: r2 =>
    ciPrefix tag r2 &&
      (match (r2.drop tag.length).dropWhile isWsChar with
       | '>' :: _ => true
       | _ => false)
  | _ => false

/-- `new RegExp(`</tag\s*>`, "i").test(line)`. -/
def hasCloseTag (cs tag : List Char) : Bool :=
  (List.range cs.length).any (closeTagAt cs tag)

/-- The open pattern `<tag[\s>/]` matches at position `i`. -/
def openTagAt (cs tag : List Char) (i : Nat) : Bool :=
  match cs.drop i with
  | '<' :: r2 =>
    ciPrefix tag r2 &&
      (match r2.drop tag.length with
       | c :: _ => isWsChar c || c == '>' || c == '/'
       | [] => false)
  | _ => false

/-- `new RegExp(`<tag[\s>/]`, "i").test(line)`. -/
def hasOpenTag (cs tag : List Char) : Bool :=
  (List.range cs.length).any (openTagAt cs tag)

/-- The HTML void-element list of `parseHtmlBlock`. -/
def voidElements : List String :=
  ["area", "base", "br", "col", "embed", "hr", "img", "input",
   "link", "meta", "param", "source", "track", "wbr"]

/-! ### Block sub-parsers (`parseCodeBlock`, `parseMathBlock`, …)

Each loop of `MarkdownParser` that only walks forward over the line array is
embedded as a structural recursion over the remaining lines, returning the
collected data together with the number of lines consumed. -/

/-- Children of a text block: `content ? [schema.text(content)] : []`. -/
def textChildren (s : String) : List MNode := if s = "" then [] else [txt s]

/-- The collection loop of `parseCodeBlock` over the lines after the opening
fence: tracks the nesting level of inner language-tagged fences, strips the
fence indent, and stops at the matching closing fence.  `none` when the end
of input is reached first (unterminated block). -/
def codeCollect (fenceIndent level : Nat) : List (List Char) → Option (List (List Char) × Nat)
  | [] => none
  | l :: rest =>
    let isEnd := isCodeEnd l
    let isStart := !isEnd && (matchCodeStart l).isSome
    if isEnd && level == 0 then some ([], 0)
    else
      let stripped := if 0 < fenceIndent ∧ fenceIndent ≤ l.length then l.drop fenceIndent else l
      let newLevel := if isStart then level + 1 else if isEnd then level - 1 else level
      match codeCollect fenceIndent newLevel rest with
      | some (cl, n) => some (stripped :: cl, n + 1)
      | none => none

/-- `parseCodeBlock(lines, i)`: `l` is the opening-fence line, `rest` the
lines after it.  Returns the node and the total number of lines consumed, or
`none` for an unterminated block (handled as plain paragraphs by the
caller). -/
def parseCodeBlock (l : List Char) (rest : List (List Char)) : Option (MNode × Nat) :=
  match matchCodeStart l with
  | none => none
  | some (indent, lang, _) =>
    match codeCollect indent 0 rest with
    | none => none
    | some (content, n) =>
      some (mk "code_block" { language := ⟨lang⟩ } (textChildren ⟨joinChar '\n' content⟩), n + 2)

/-- The collection loop of `parseMathBlock` / `parseContainer`: gather lines
until `stop` holds; also report whether the terminator was found. -/
def collectUntil (stop : List Char → Bool) : List (List Char) → (List (List Char) × Nat × Bool)
  | [] => ([], 0, false)
  | l :: rest =>
    if stop l then ([], 0, true)
    else
      let (cl, n, f) := collectUntil stop rest
      (l :: cl, n + 1, f)

/-- The collection loop of `parseBlockquote` over the whole remaining input:
blank lines belong to the quote only when the next line is a quote line. -/
def bqCollect : List (List Char) → (List (List Char) × Nat)
  | [] => ([], 0)
  | l :: rest =>
    if isBlank l then
      match rest with
      | nx :: _ =>
        if (matchBlockquote nx).isSome then
          let (cl, n) := bqCollect rest
          ([] :: cl, n + 1)
        else ([], 0)
      | [] => ([], 0)
    else
      match matchBlockquote l with
      | some content =>
        let (cl, n) := bqCollect rest
        (content :: cl, n + 1)
      | none => ([], 0)

/-- The post-processing of `parseBlockquote`: paragraphs get a
`syntax_marker(blockquote)`-tagged `"> "` run prepended (with fresh default
attributes, as the source rebuilds the node with `null` attrs). -/
def bqPrefix (b : MNode) : MNode :=
  match b with
  | .node "paragraph" _ cs =>
    .node "paragraph" {} (.cons (MNode.text "> " [syntaxMarker "blockquote"]) cs)
  | b => b

/-- The loop of `parseTaskList`: consume consecutive task-item lines. -/
def taskCollect : List (List Char) → (List MNode × Nat)
  | [] => ([], 0)
  | l :: rest =>
    if isBlank l then ([], 0)
    else
      match matchTask l with
      | some (_, box, content) =>
        let para := mk "paragraph" {} (parseInlineWithSyntax content)
        let (items, n) := taskCollect rest
        (mk "task_item" { checked := lowerS box == ['x'] } [para] :: items, n + 1)
      | none => ([], 0)

/-- The inner loop of `parseBulletList` / `parseOrderedList`: collect the
continuation lines of one list item, toggling the in-fence flag on ```` ``` ````
lines, keeping blank lines when indented content follows, and stripping the
item indent. -/
def listItemCollect (itemIndent : Nat) (isBullet : Bool) :
    Bool → List (List Char) → (List (List Char) × Nat)
  | _, [] => ([], 0)
  | inCode, l :: rest =>
    let inCode1 := if startsWithL ['`', '`', '`'] (trimL l) then !inCode else inCode
    let isItem := fun (x : List Char) =>
      if isBullet then (matchBullet x).isSome else (matchOrdered x).isSome
    if isBlank l then
      if !inCode1 &&
          (match rest with
           | nx :: _ => isItem nx || !(decide (2 ≤ (nx.takeWhile isWsChar).length))
           | [] => false) then
        ([], 0)
      else
        let (ls, n) := listItemCollect itemIndent isBullet inCode1 rest
        ([] :: ls, n + 1)
    else if !inCode1 && isItem l then ([], 0)
    else
      let lineIndent := (l.takeWhile isWsChar).length
      if itemIndent ≤ lineIndent || inCode1 || startsWithL ['`', '`', '`'] (trimL l) then
        let (ls, n) := listItemCollect itemIndent isBullet inCode1 rest
        (l.drop (min lineIndent itemIndent) :: ls, n + 1)
      else ([], 0)

/-- The outer loop of `parseBulletList`: splits the input into the line
lists of the individual items (fuelled because it jumps over each item's
continuation lines). -/
def bulletCollect : Nat → Option Nat → List (List Char) → (List (List (List Char)) × Nat)
  | 0, _, _ => ([], 0)
  | _+1, _, [] => ([], 0)
  | fuel+1, base, l :: rest =>
    if isBlank l then
      match rest with
      | nx :: _ =>
        match matchBullet nx with
        | some (ind, _, _) =>
          if base = none ∨ base = some ind then
            let (items, n) := bulletCollect fuel base rest
            (items, n + 1)
          else ([], 0)
        | none => ([], 0)
      | [] => ([], 0)
    else
      match matchBullet l with
      | none => ([], 0)
      | some (ind, _, content) =>
        let b := base.getD ind
        if ind ≠ b then ([], 0)
        else
          let (extra, n2) :=
            listItemCollect (ind + 2) true (startsWithL ['`', '`', '`'] (trimL content)) rest
          let (items, n3) := bulletCollect fuel (some b) (rest.drop n2)
          ((content :: extra) :: items, 1 + n2 + n3)

/-- The outer loop of `parseOrderedList` (item indent is
`indent + digits + 2`). -/
def orderedCollect : Nat → Option Nat → List (List Char) → (List (List (List Char)) × Nat)
  | 0, _, _ => ([], 0)
  | _+1, _, [] => ([], 0)
  | fuel+1, base, l :: rest =>
    if isBlank l then
      match rest with
      | nx :: _ =>
        match matchOrdered nx with
        | some (ind, _, _) =>
          if base = none ∨ base = some ind then
            let (items, n) := orderedCollect fuel base rest
            (items, n + 1)
          else ([], 0)
        | none => ([], 0)
      | [] => ([], 0)
    else
      match matchOrdered l with
      | none => ([], 0)
      | some (ind, digits, content) =>
        let b := base.getD ind
        if ind ≠ b then ([], 0)
        else
          let (extra, n2) :=
            listItemCollect (ind + digits.length + 2) false
              (startsWithL ['`', '`', '`'] (trimL content)) rest
          let (items, n3) := orderedCollect fuel (some b) (rest.drop n2)
          ((content :: extra) :: items, 1 + n2 + n3)

/-- `parseInt(match[2], 10)` on a digit capture. -/
def digitsToNat (cs : List Char) : Nat := cs.foldl (fun a c => a * 10 + (c.toNat - 48)) 0

/-- Column alignment from one separator cell (`parseTable`). -/
def alignOf (col : List Char) : Option String :=
  let t := trimL col
  let left := startsWithL [':'] t
  let right := endsWithL [':'] t
  if left && right then some "center"
  else if right then some "right"
  else if left then some "left"
  else none

/-- Alignments of a separator row:
`separatorLine.trimEnd().slice(1, -1).split("|").map(…)`. -/
def parseAlignments (sep : List Char) : List (Option String) :=
  (splitChar '|' ((trimEndL sep).drop 1).dropLast).map alignOf

/-- The cell loop of `parseTableRow`: trims each cell, parses it inline, and
attaches `alignments[i] || null`. -/
def tableCells (isHeader : Bool) (aligns : List (Option String)) :
    List (List Char) → Nat → List MNode
  | [], _ => []
  | c :: cs, i =>
    let nodeType := if isHeader then "table_header" else "table_cell"
    mk nodeType { align := (aligns.get? i).join } (parseInlineWithSyntax (trimL c)) ::
      tableCells isHeader aligns cs (i + 1)

/-- `parseTableRow(line, isHeader, alignments)`. -/
def parseTableRow (l : List Char) (isHeader : Bool) (aligns : List (Option String)) :
    List MNode :=
  tableCells isHeader aligns (splitChar '|' ((trimEndL l).drop 1).dropLast) 0

/-- The data-row loop of `parseTable`: skip blank lines, consume table rows,
stop at the first other line. -/
def tableDataRows (aligns : List (Option String)) : List (List Char) → (List MNode × Nat)
  | [] => ([], 0)
  | l :: rest =>
    if isBlank l then
      let (rows, n) := tableDataRows aligns rest
      (rows, n + 1)
    else if isTableRow l then
      let (rows, n) := tableDataRows aligns rest
      (mk "table_row" {} (parseTableRow l false aligns) :: rows, n + 1)
    else ([], 0)

/-- `parseTable(lines, i)`: `l` is the header row; the separator may be one
line down or two (one interposed blank line tolerated).  `none` when no
valid separator row follows. -/
def parseTable (l : List Char) (rest : List (List Char)) : Option (MNode × Nat) :=
  let sepData : Option (List Char × Nat × List (List Char)) :=
    match rest with
    | r1 :: rest1 =>
      if isBlank r1 then
        match rest1 with
        | r2 :: rest2 => some (r2, 2, rest2)
        | [] => none
      else some (r1, 1, rest1)
    | [] => none
  match sepData with
  | none => none
  | some (sep, sepOffset, dataLines) =>
    if isTableSep sep then
      let aligns := parseAlignments sep
      let headerCells := parseTableRow l true aligns
      let (rows, n) := tableDataRows aligns dataLines
      some (mk "table" {} (mk "table_row" {} headerCells :: rows), sepOffset + 1 + n)
    else none

/-- The multi-line collection loop of `parseHtmlBlock`: push each line,
count same-tag opens and closes, stop once the count returns to zero. -/
def htmlCollect (tag : List Char) (nest : Nat) : List (List Char) → (List (List Char) × Nat)
  | [] => ([], 0)
  | l :: rest =>
    let n1 := if hasOpenTag l tag then nest + 1 else nest
    if hasCloseTag l tag then
      if n1 - 1 = 0 then ([l], 1)
      else
        let (ls, k) := htmlCollect tag (n1 - 1) rest
        (l :: ls, k + 1)
    else
      let (ls, k) := htmlCollect tag n1 rest
      (l :: ls, k + 1)

/-- `parseHtmlBlock(lines, i)`: void elements, `/​>`-terminated lines and
lines already containing the closing tag stay single-line; otherwise lines
are consumed until the tag balance returns to zero (or input ends). -/
def parseHtmlBlock (l : List Char) (rest : List (List Char)) : (MNode × Nat) :=
  let tag := (matchHtmlStart l).getD []
  if decide ((⟨lowerS tag⟩ : String) ∈ voidElements) || endsWithL ['/', '>'] (trimEndL l) then
    (mk "html_block" {} (textChildren ⟨l⟩), 1)
  else if hasCloseTag l tag then
    (mk "html_block" {} (textChildren ⟨l⟩), 1)
  else
    let (extra, n) := htmlCollect tag 1 rest
    (mk "html_block" {} (textChildren ⟨joinChar '\n' (l :: extra)⟩), 1 + n)

/-! ### `parseBlocks` / `parse` -/

/-- Call frames of the block parser (`parseBlocks` recurses through
containers, blockquotes and list items), defunctionalized so the recursion
is structural on one fuel counter.  `atStart` tracks `blocks.length === 0`
of the current `parseBlocks` invocation (used by the blank-line rule). -/
inductive BlockCall where
  | blocks (atStart : Bool) (lines : List (List Char))
  | items (itemLinesList : List (List (List Char)))

/-- The block scanner of `MarkdownParser.parseBlocks`, in its priority
order: blank-line runs, fenced code (falling through when unterminated),
single-line math, multi-line math, container, heading, image, horizontal
rule, blockquote, task list, bullet list, ordered list, table (falling
through without a separator), HTML block, paragraph.  An `items` frame
block-parses each list item's collected lines
(`itemContent.length > 0 ? itemContent : [paragraph]`). -/
def parseGo : Nat → BlockCall → List MNode
  | 0, _ => []
  | _+1, .items [] => []
  | fuel+1, .items (ls :: rest) =>
    let content := parseGo fuel (.blocks true ls)
    mk "list_item" {} (if content = [] then [emptyPara] else content) ::
      parseGo fuel (.items rest)
  | _+1, .blocks _ [] => []
  | fuel+1, .blocks atStart (l :: rest) =>
    let lines := l :: rest
    if isBlank l then
      let blanks := (lines.takeWhile isBlank).length
      let after := lines.drop blanks
      let extra := if atStart then blanks else blanks - 1
      let pushed := if after = [] then extra - 1 else extra
      List.replicate pushed emptyPara ++
        parseGo fuel (.blocks (atStart && pushed == 0) after)
    else
      match parseCodeBlock l rest with
      | some (node, n) => node :: parseGo fuel (.blocks false (lines.drop n))
      | none =>
      match matchMathInlineBlock l with
      | some content =>
        mk "math_block" {} (textChildren ⟨content⟩) ::
          parseGo fuel (.blocks false rest)
      | none =>
      if isMathFence l then
        let (cl, n, found) := collectUntil isMathFence rest
        mk "math_block" {} (textChildren ⟨joinChar '\n' cl⟩) ::
          parseGo fuel (.blocks false (lines.drop (n + (if found then 2 else 1))))
      else
      match matchContainerStart l with
      | some (ctype, ctitle) =>
        let (cl, n, found) := collectUntil isContainerEnd rest
        let inner := parseGo fuel (.blocks true cl)
        mk "container" { ctype := ctype, ctitle := ctitle } inner ::
          parseGo fuel (.blocks false (lines.drop (n + (if found then 2 else 1))))
      | none =>
      match matchHeading l with
      | some (hashes, content) =>
        mk "heading" { level := hashes.length }
            ([MNode.text ⟨hashes⟩ [syntaxMarker "heading"], MNode.text " " []] ++
              parseInlineWithSyntax content) ::
          parseGo fuel (.blocks false rest)
      | none =>
      match matchImageLine l with
      | some (alt, src, title) =>
        mk "image" { src := src, alt := alt, title := title } [] ::
          parseGo fuel (.blocks false rest)
      | none =>
      if isHr l then
        mk "horizontal_rule" {} [] :: parseGo fuel (.blocks false rest)
      else
      if (matchBlockquote l).isSome then
        let (cl, n) := bqCollect lines
        let inner := (parseGo fuel (.blocks true cl)).map bqPrefix
        mk "blockquote" {} (if inner = [] then [emptyPara] else inner) ::
          parseGo fuel (.blocks false (lines.drop n))
      else
      if (matchTask l).isSome then
        let (items, n) := taskCollect lines
        mk "task_list" {}
            (if items = [] then [mk "task_item" { checked := false } [emptyPara]] else items) ::
          parseGo fuel (.blocks false (lines.drop n))
      else
      if (matchBullet l).isSome then
        let (itemLists, n) := bulletCollect (lines.length + 1) none lines
        let items := parseGo fuel (.items itemLists)
        mk "bullet_list" {}
            (if items = [] then [mk "list_item" {} [emptyPara]] else items) ::
          parseGo fuel (.blocks false (lines.drop n))
      else
      match matchOrdered l with
      | some (_, digits, _) =>
        let (itemLists, n) := orderedCollect (lines.length + 1) none lines
        let items := parseGo fuel (.items itemLists)
        mk "ordered_list" { ostart := digitsToNat digits }
            (if items = [] then [mk "list_item" {} [emptyPara]] else items) ::
          parseGo fuel (.blocks false (lines.drop n))
      | none =>
      match (if isTableRow l then parseTable l rest else none) with
      | some (node, n) => node :: parseGo fuel (.blocks false (lines.drop n))
      | none =>
      if (matchHtmlStart l).isSome then
        let (node, n) := parseHtmlBlock l rest
        node :: parseGo fuel (.blocks false (lines.drop n))
      else
        mk "paragraph" {} (parseInlineWithSyntax l) ::
          parseGo fuel (.blocks false rest)

/-- `markdown.replace(/\r\n?/g, "\n").split("\n")`. -/
def linesOf (md : String) : List (List Char) := splitChar '\n' (normalizeNewlines md.data)

/-- Size measure used to pick sufficient fuel. -/
def sizeOfLines (ls : List (List Char)) : Nat := (ls.map (fun l => l.length + 2)).sum

/-- Fuel that always suffices for `parseGo` (each frame consumes at least
one line of its list, and nested line lists come from consumed lines). -/
def blockFuel (ls : List (List Char)) : Nat :=
  (sizeOfLines ls + 2) * (sizeOfLines ls + 2) + 2

/-- `parseBlocks(lines)`. -/
def parseBlocks (ls : List (List Char)) : List MNode :=
  parseGo (blockFuel ls) (.blocks true ls)

/-- `MarkdownParser.parse`: normalize newlines, split into lines, parse the
blocks, and fall back to a single empty paragraph for an empty result.
(The returned `markers` array of the source is never written to and stays
empty; it is omitted here.) -/
def parse (md : String) : MNode :=
  let blocks := parseBlocks (linesOf md)
  mk "doc" {} (if blocks = [] then [emptyPara] else blocks)

/-! ### Decoration engine (`src/core/decorations/index.ts`)

ProseMirror position arithmetic: a text node spans its character count, the
leaf blocks `image` and `horizontal_rule` count 1, every other node counts
its content plus 2 boundary tokens; the children of the document start at
position 0, the children of every other node one past its opening token. -/

/-- Node types whose content is inline text (`isTextblock`).  Modelled from
the spec data model: these are the textual blocks of the milkup schema. -/
def isTextblockType (t : String) : Bool :=
  t == "paragraph" || t == "heading" || t == "code_block" || t == "math_block" ||
  t == "html_block" || t == "table_cell" || t == "table_header"

mutual
/-- `node.nodeSize`. -/
def msize : MNode → Nat
  | .text s _ => s.length
  | .node t _ cs => if t = "image" ∨ t = "horizontal_rule" then 1 else 2 + lsize cs
/-- `fragment.size`. -/
def lsize : MList → Nat
  | .nil => 0
  | .cons c cs => msize c + lsize cs
end

/-- `doc.content.size`: the range of valid positions is `[0, docContentSize]`. -/
def docContentSize : MNode → Nat
  | .text s _ => s.length
  | .node _ _ cs => lsize cs

/-- A `SyntaxMarkerRegion`: one `syntax_marker`-tagged text node. -/
structure SRegion where
  rfrom : Nat
  rto : Nat
  stype : String
deriving DecidableEq, Repr

mutual
/-- `findSyntaxMarkerRegions`, one node of the `descendants` walk. -/
def smRegionsNode (n : MNode) (pos : Nat) : List SRegion :=
  match n with
  | .text s marks =>
    match marks.find? (fun m => m.name == "syntax_marker") with
    | some m => [{ rfrom := pos, rto := pos + s.length, stype := m.syntaxType }]
    | none => []
  | .node t _ cs =>
    if t = "image" ∨ t = "horizontal_rule" then [] else smRegionsList cs (pos + 1)
def smRegionsList : MList → Nat → List SRegion
  | .nil, _ => []
  | .cons c cs, pos => smRegionsNode c pos ++ smRegionsList cs (pos + msize c)
end

/-- `findSyntaxMarkerRegions(doc)` (document children start at position 0). -/
def findSyntaxMarkerRegions (doc : MNode) : List SRegion :=
  match doc with
  | .node _ _ cs => smRegionsList cs 0
  | .text _ _ => []

mutual
/-- `doc.resolve(p)` reduced to what the engine uses: the innermost node
whose content strictly contains `p` (boundaries resolve to the outer node),
together with that node's content start (`$pos.start()`). -/
def resolveNode (n : MNode) (cstart p : Nat) : MNode × Nat :=
  match n with
  | .text _ _ => (n, cstart)
  | .node _ _ cs => resolveKids n cstart cs cstart p
def resolveKids (parent : MNode) (pstart : Nat) : MList → Nat → Nat → MNode × Nat
  | .nil, _, _ => (parent, pstart)
  | .cons c cs, off, p =>
    if p ≤ off then (parent, pstart)
    else if p < off + msize c then
      match c with
      | .text _ _ => (parent, pstart)
      | .node t _ _ =>
        if t = "image" ∨ t = "horizontal_rule" then (parent, pstart)
        else resolveNode c (off + 1) p
    else resolveKids parent pstart cs (off + msize c) p
end

/-- Resolve against the document (content coordinates start at 0). -/
def resolveDoc (doc : MNode) (p : Nat) : MNode × Nat :=
  match doc with
  | .node _ _ cs => resolveKids doc 0 cs 0 p
  | .text _ _ => (doc, 0)

/-- The keys of `SYNTAX_CLASSES`. -/
def syntaxClassKeys : List String :=
  ["strong", "emphasis", "code_inline", "strikethrough", "link", "highlight",
   "math_inline", "heading", "strong_emphasis", "escape"]

/-- Whether a node (a text run) carries a mark of the given type name. -/
def hasMarkNamed (n : MNode) (name : String) : Bool :=
  (nodeMarks n).any (fun m => m.name == name)

/-- The run-merging loop of `findFullMarkRegion`: maximal contiguous spans
of children carrying the mark `name`. -/
def markRuns (name : String) : MList → Nat → Option (Nat × Nat) → List (Nat × Nat)
  | .nil, _, cur => match cur with | some r => [r] | none => []
  | .cons c cs, off, cur =>
    let ce := off + msize c
    if hasMarkNamed c name then
      markRuns name cs ce (some (match cur with | some (f, _) => (f, ce) | none => (off, ce)))
    else
      match cur with
      | some r => r :: markRuns name cs ce none
      | none => markRuns name cs ce none

/-- `findFullMarkRegion(parent, markType, startHint, parentOffset)`: the run
containing `startHint`, else the first run. -/
def findFullMarkRegion (parent : MNode) (name : String) (startHint pstart : Nat) :
    Option (String × Nat × Nat) :=
  let runs :=
    match parent with
    | .node _ _ cs => markRuns name cs pstart none
    | .text _ _ => []
  match runs.find? (fun r => decide (r.1 ≤ startHint ∧ startHint ≤ r.2)) with
  | some r => some (name, r.1, r.2)
  | none =>
    match runs with
    | r :: _ => some (name, r.1, r.2)
    | [] => none

/-- The mark loop inside `findSemanticRegionsAt`: for every mark of the
child that is semantic (`name ≠ syntax_marker`, listed in `SYNTAX_CLASSES`)
and not yet found, add its full region. -/
def semFromMarks (parent : MNode) (pstart childStart : Nat) :
    List Mark → List String → (List (String × Nat × Nat) × List String)
  | [], found => ([], found)
  | m :: ms, found =>
    if m.name ≠ "syntax_marker" ∧ m.name ∈ syntaxClassKeys ∧ m.name ∉ found then
      match findFullMarkRegion parent m.name childStart pstart with
      | some r =>
        let (rs, found') := semFromMarks parent pstart childStart ms (found ++ [m.name])
        (r :: rs, found')
      | none => semFromMarks parent pstart childStart ms found
    else semFromMarks parent pstart childStart ms found

/-- The child loop of `findSemanticRegionsAt` (children whose closed span
`[childStart, childEnd]` contains the position contribute their marks). -/
def semKids (parent : MNode) (pstart p : Nat) :
    MList → Nat → List String → List (String × Nat × Nat)
  | .nil, _, _ => []
  | .cons c cs, off, found =>
    let ce := off + msize c
    if off ≤ p ∧ p ≤ ce then
      let (rs, found') := semFromMarks parent pstart off (nodeMarks c) found
      rs ++ semKids parent pstart p cs ce found'
    else semKids parent pstart p cs ce found

/-- `findSemanticRegionsAt(doc, pos)`. -/
def findSemanticRegionsAt (doc : MNode) (p : Nat) : List (String × Nat × Nat) :=
  let (parent, pstart) := resolveDoc doc p
  match parent with
  | .node t _ cs => if isTextblockType t then semKids parent pstart p cs pstart [] else []
  | .text _ _ => []

/-- `getActiveSemanticRegions(doc, cursorPos)`: the inline semantic regions
at the cursor, plus the whole heading span when the parent block is a
heading. -/
def getActiveSemanticRegions (doc : MNode) (p : Nat) : List (String × Nat × Nat) :=
  let inline := findSemanticRegionsAt doc p
  let (parent, pstart) := resolveDoc doc p
  match parent with
  | .node "heading" _ cs => inline ++ [("heading", pstart, pstart + lsize cs)]
  | _ => inline

/-- `SYNTAX_TYPE_RELATIONS[t] || [t]`. -/
def syntaxTypeRelations (t : String) : List String :=
  if t = "strong_emphasis" then ["strong", "emphasis"]
  else if t = "strong" then ["strong", "strong_emphasis"]
  else if t = "emphasis" then ["emphasis", "strong_emphasis"]
  else [t]

/-- `isSyntaxTypeRelated(syntaxType, semanticType)`. -/
def isSyntaxTypeRelated (s sem : String) : Bool := sem ∈ syntaxTypeRelations s

/-- The visibility decision of `computeDecorations` for one
`SyntaxMarkerRegion` (with `sourceView` a parameter; the early-return for
`sourceView === true` makes every region visible, which the initial
`shouldShow = sourceView` reproduces).  Mirrors the branch chain: escape
window, else related active semantic region, then the direct
cursor-in-region test. -/
def shouldShow (doc : MNode) (cursorPos : Nat) (sourceView : Bool) (r : SRegion) : Bool :=
  let active := getActiveSemanticRegions doc cursorPos
  let s1 :=
    if !sourceView && r.stype == "escape" then
      decide (r.rfrom ≤ cursorPos ∧ cursorPos ≤ r.rto + 1)
    else if !sourceView && decide (0 < active.length) then
      active.any (fun a =>
        isSyntaxTypeRelated r.stype a.1 &&
        decide (a.2.1 ≤ r.rfrom ∧ r.rto ≤ a.2.2))
    else sourceView
  if !s1 then decide (r.rfrom ≤ cursorPos ∧ cursorPos ≤ r.rto) else s1

/-- The regions of a document that `computeDecorations` decorates as
visible (`milkup-syntax-visible`) for a cursor position, with
`sourceView = false`. -/
def visibleRegions (doc : MNode) (cursorPos : Nat) : List SRegion :=
  (findSyntaxMarkerRegions doc).filter (shouldShow doc cursorPos false)

/-! ### Source-view transform (`src/core/plugins/source-view-transform.ts`) -/

def nodeType : MNode → String
  | .text _ _ => "text"
  | .node t _ _ => t

def nodeAttrs : MNode → Attrs
  | .text _ _ => {}
  | .node _ a _ => a

def childrenOf : MNode → List MNode
  | .text _ _ => []
  | .node _ _ cs => cs.toList

/-- Join pieces with a multi-character separator. -/
def joinWith (sep : List Char) : List (List Char) → List Char
  | [] => []
  | [p] => p
  | p :: ps => p ++ sep ++ joinWith sep ps

/-- `line.length > 0 ? schema.text(line) : undefined`. -/
def lineChildren (l : List Char) : MList :=
  if l.length > 0 then .cons (txt ⟨l⟩) .nil else .nil

/-- The per-line paragraph loop of `transformCodeBlockToParagraphs`. -/
def codeParas (id total : Nat) (language : String) :
    List (List Char) → Nat → List MNode
  | [], _ => []
  | l :: ls, idx =>
    MNode.node "paragraph"
        { codeBlockId := some id, lineIndex := idx, totalLines := total,
          language := language } (lineChildren l) ::
      codeParas id total language ls (idx + 1)

/-- `transformCodeBlockToParagraphs`: strip trailing newlines, rebuild the
fenced Markdown text, one paragraph per line stamped with the group id,
line index, total line count and language. -/
def transformCodeBlockToParagraphs (n : MNode) (id : Nat) : List MNode :=
  let language := (nodeAttrs n).language
  let content := stripTrailingNewlines (textContent n).data
  let lines := splitChar '\n' ("```".data ++ language.data ++ '\n' :: content ++ '\n' :: "```".data)
  codeParas id lines.length language lines 0

/-- The per-line paragraph loop of `transformMathBlockToParagraphs`. -/
def mathParas (id total : Nat) : List (List Char) → Nat → List MNode
  | [], _ => []
  | l :: ls, idx =>
    MNode.node "paragraph"
        { mathBlockId := some id, mathBlockLineIndex := idx,
          mathBlockTotalLines := total } (lineChildren l) ::
      mathParas id total ls (idx + 1)

/-- `transformMathBlockToParagraphs`: `$$\ncontent\n$$` split into lines. -/
def transformMathBlockToParagraphs (n : MNode) (id : Nat) : List MNode :=
  let content := stripTrailingNewlines (textContent n).data
  let lines := splitChar '\n' ("$$\n".data ++ content ++ "\n$$".data)
  mathParas id lines.length lines 0

/-- The per-line paragraph loop of `transformHtmlBlockToParagraphs`. -/
def htmlParas (id total : Nat) : List (List Char) → Nat → List MNode
  | [], _ => []
  | l :: ls, idx =>
    MNode.node "paragraph"
        { htmlBlockId := some id, htmlBlockLineIndex := idx,
          htmlBlockTotalLines := total } (lineChildren l) ::
      htmlParas id total ls (idx + 1)

/-- `transformHtmlBlockToParagraphs` (no fence added, raw lines). -/
def transformHtmlBlockToParagraphs (n : MNode) (id : Nat) : List MNode :=
  let lines := splitChar '\n' (stripTrailingNewlines (textContent n).data)
  htmlParas id lines.length lines 0

/-- One table row rendered back to a Markdown line:
`"| " + cells.join(" | ") + " |"`. -/
def rowLine (row : MNode) : List Char :=
  "| ".data ++ joinWith " | ".data ((childrenOf row).map (fun c => (textContent c).data)) ++ " |".data

/-- One separator cell from a column alignment. -/
def sepCellOf (a : Option String) : List Char :=
  match a with
  | some "center" => ":---:".data
  | some "right" => "---:".data
  | some "left" => ":---".data
  | _ => "---".data

/-- The per-line paragraph loop of `transformTableToParagraphs`. -/
def tableParas (id total : Nat) : List (List Char) → Nat → List MNode
  | [], _ => []
  | l :: ls, idx =>
    MNode.node "paragraph"
        { tableId := some id, tableRowIndex := idx, tableTotalRows := total }
        (.cons (txt ⟨l⟩) .nil) ::
      tableParas id total ls (idx + 1)

/-- `transformTableToParagraphs`: the header row, then the separator row
rebuilt from the header cells' `align` attributes, then the data rows. -/
def transformTableToParagraphs (n : MNode) (id : Nat) : List MNode :=
  let lines :=
    match childrenOf n with
    | [] => []
    | r0 :: rest =>
      let aligns := (childrenOf r0).map (fun c => (nodeAttrs c).align)
      rowLine r0 :: ("| ".data ++ joinWith " | ".data (aligns.map sepCellOf) ++ " |".data) ::
        rest.map rowLine
  tableParas id lines.length lines 0

/-- `transformImageToParagraph`: one paragraph holding the literal
`![alt](src "title")` text, stamped with `imageAttrs`. -/
def transformImageToParagraph (n : MNode) : MNode :=
  let a := nodeAttrs n
  let titlePart := if a.title ≠ "" then " \"" ++ a.title ++ "\"" else ""
  MNode.node "paragraph" { imageAttrs := some (a.src, a.alt, a.title) }
    (.cons (txt ("![" ++ a.alt ++ "](" ++ a.src ++ titlePart ++ ")")) .nil)

/-- `transformHrToParagraph`. -/
def transformHrToParagraph : MNode :=
  MNode.node "paragraph" { hrSource := true } (.cons (txt "---") .nil)

/-- The validation regex of `transformParagraphsToCodeBlock`:
`/^```([^\n]*?)\n([\s\S]*?)\n```$/` → (language, content).  The lazy
language stops at the first newline; the anchored tail fixes the content
(everything between that newline and the final `` `\n``` ` ``). -/
def fenceMatch (cs : List Char) : Option (String × String) :=
  if startsWithL ['`', '`', '`'] cs then
    let r := cs.drop 3
    let lang := r.takeWhile (fun c => !(c == '\n'))
    match r.drop lang.length with
    | '\n' :: after =>
      if 4 ≤ after.length ∧ after.drop (after.length - 4) = "\n```".data then
        some (⟨lang⟩, ⟨after.take (after.length - 4)⟩)
      else none
    | _ => none
  else none

/-- `transformParagraphsToCodeBlock`: join the group's lines, validate the
fence shape, rebuild the code block (the source also returns the language,
unused by its callers). -/
def transformParagraphsToCodeBlock (ps : List MNode) : Option MNode :=
  match ps with
  | [] => none
  | _ =>
    match fenceMatch (joinChar '\n' (ps.map (fun p => (textContent p).data))) with
    | some (lang, content) =>
      some (mk "code_block" { language := lang } (textChildren content))
    | none => none

/-- The validation regex of `transformParagraphsToMathBlock`:
`/^\$\$\n([\s\S]*?)\n\$\$$/` → content. -/
def mathMatch (cs : List Char) : Option String :=
  if startsWithL "$$\n".data cs then
    let after := cs.drop 3
    if 3 ≤ after.length ∧ after.drop (after.length - 3) = "\n$$".data then
      some ⟨after.take (after.length - 3)⟩
    else none
  else none

/-- `transformParagraphsToMathBlock` (rebuilds with `language: "latex"`). -/
def transformParagraphsToMathBlock (ps : List MNode) : Option MNode :=
  match ps with
  | [] => none
  | _ =>
    match mathMatch (joinChar '\n' (ps.map (fun p => (textContent p).data))) with
    | some content => some (mk "math_block" { language := "latex" } (textChildren content))
    | none => none

/-- `transformParagraphsToHtmlBlock`: joined text must match `/^<[a-zA-Z]/`. -/
def transformParagraphsToHtmlBlock (ps : List MNode) : Option MNode :=
  match ps with
  | [] => none
  | _ =>
    let content := joinChar '\n' (ps.map (fun p => (textContent p).data))
    if (match content with | '<' :: c :: _ => isAsciiAlpha c | _ => false) then
      some (mk "html_block" {} (textChildren ⟨content⟩))
    else none

/-- `transformParagraphsToTable`: at least two paragraphs, reparsed through
`parseMarkdown`; the first `table` child of the result (if any). -/
def transformParagraphsToTable (ps : List MNode) : Option MNode :=
  if ps.length < 2 then none
  else
    (childrenOf (parse ⟨joinChar '\n' (ps.map (fun p => (textContent p).data))⟩)).find?
      (fun n => nodeType n == "table")

/-- Tail of the image-paragraph pattern after the lazy `src`:
`(?:\s+"([^"]*)")?\)$` (anchored immediately after `)`). -/
def imgTailStrict (rest : List Char) : Option (Option (List Char)) :=
  let wsr := rest.takeWhile isWsChar
  let withTitle :=
    if 1 ≤ wsr.length then
      match rest.drop wsr.length with
      | '"' :: r3 =>
        let t := r3.takeWhile (fun c => !(c == '"'))
        match r3.drop t.length with
        | ['"', ')'] => some (some t)
        | _ => none
      | _ => none
    else none
  match withTitle with
  | some r => some r
  | none => if rest = [')'] then some none else none

/-- The validation regex of `transformParagraphToImage`:
`/^!\[([^\]]*)\]\((.+?)(?:\s+"([^"]*)")?\)$/` → (alt, src, title). -/
def imageParaMatch (cs : List Char) : Option (String × String × String) :=
  match cs with
  | '!' :: '[' :: r =>
    let alt := r.takeWhile (fun c => !(c == ']'))
    match r.drop alt.length with
    | ']' :: '(' :: r2 =>
      match firstFrom
          (fun k => (imgTailStrict (r2.drop k)).isSome && decide ('\n' ∉ r2.take k))
          1 (cs.length + 1) with
      | some k =>
        match imgTailStrict (r2.drop k) with
        | some tit =>
          some (⟨alt⟩, ⟨r2.take k⟩, match tit with | some t => ⟨t⟩ | none => "")
        | none => none
      | none => none
    | _ => none
  | _ => none

/-- `transformParagraphToImage`: only for paragraphs stamped with
`imageAttrs`, re-reading the (possibly edited) literal text; `none` when the
text is no longer valid image syntax. -/
def transformParagraphToImage (p : MNode) : Option MNode :=
  if (nodeAttrs p).imageAttrs = none then none
  else
    match imageParaMatch (textContent p).data with
    | some (alt, src, title) => some (mk "image" { src := src, alt := alt, title := title } [])
    | none => none

/-- `transformParagraphToHr`: only for paragraphs stamped with `hrSource`,
when the trimmed text still matches `/^[-*_]{3,}$/`. -/
def transformParagraphToHr (p : MNode) : Option MNode :=
  if !(nodeAttrs p).hrSource then none
  else
    let t := trimL (textContent p).data
    if t.all (fun c => c == '-' || c == '*' || c == '_') && decide (3 ≤ t.length) then
      some (mk "horizontal_rule" {} [])
    else none

/-- Result of `processNodeForSourceConversion` on one node: `unchanged`
models returning the same reference, `one` a rebuilt node, `many` a
replacement paragraph list (`Array.isArray` distinguishes the cases in the
source). -/
inductive ProcRes where
  | unchanged : ProcRes
  | one : MNode → ProcRes
  | many : List MNode → ProcRes

mutual
/-- `processNodeForSourceConversion`: replace the five block kinds (plus
`math_block`) by their paragraph groups, otherwise recurse into children.
The id counter stands for the `generate…Id()` calls. -/
def flattenNode : MNode → Nat → ProcRes × Nat
  | .text _ _, ctr => (.unchanged, ctr)
  | n@(.node t a cs), ctr =>
    if t = "code_block" then (.many (transformCodeBlockToParagraphs n ctr), ctr + 1)
    else if t = "image" then (.many [transformImageToParagraph n], ctr)
    else if t = "horizontal_rule" then (.many [transformHrToParagraph], ctr)
    else if t = "table" then (.many (transformTableToParagraphs n ctr), ctr + 1)
    else if t = "html_block" then (.many (transformHtmlBlockToParagraphs n ctr), ctr + 1)
    else if t = "math_block" then (.many (transformMathBlockToParagraphs n ctr), ctr + 1)
    else if 0 < lsize cs then
      let (changed, newKids, ctr') := flattenKids cs ctr
      if changed then (.one (.node t a (MList.ofList newKids)), ctr')
      else (.unchanged, ctr')
    else (.unchanged, ctr)
/-- The child loop shared by `processNodeForSourceConversion` and the
top-level `convertBlocksToParagraphs`: processed children are spliced in,
the changed flag tracks whether anything was replaced. -/
def flattenKids : MList → Nat → Bool × List MNode × Nat
  | .nil, ctr => (false, [], ctr)
  | .cons c cs, ctr =>
    let (r, ctr1) := flattenNode c ctr
    let (ch, rest, ctr2) := flattenKids cs ctr1
    match r with
    | .many l => (true, l ++ rest, ctr2)
    | .one n => (true, n :: rest, ctr2)
    | .unchanged => (ch, c :: rest, ctr2)
end

/-- `convertBlocksToParagraphs`: whole-document flatten (one replace step
when something changed and the new content is nonempty). -/
def convertBlocksToParagraphs (doc : MNode) (seed : Nat := 0) : MNode :=
  match doc with
  | .node t a cs =>
    let (changed, newContent, _) := flattenKids cs seed
    if changed ∧ newContent ≠ [] then .node t a (MList.ofList newContent) else doc
  | d => d

/-- Grouping state of `convertParagraphsToBlocks` /
`processNodeForBlockConversion`: the emitted nodes plus the four pending
group buffers with their current ids. -/
structure SVState where
  out : List MNode := []
  cb : List MNode := []
  cbId : Option Nat := none
  tb : List MNode := []
  tbId : Option Nat := none
  hb : List MNode := []
  hbId : Option Nat := none
  mb : List MNode := []
  mbId : Option Nat := none
deriving Repr

/-- `flushCodeBlockGroup`: rebuild the buffered group, or keep the original
paragraphs verbatim when the text no longer matches the fence grammar. -/
def flushCB (st : SVState) : SVState :=
  match st.cb with
  | [] => st
  | _ =>
    { st with
      out := st.out ++ (match transformParagraphsToCodeBlock st.cb with
        | some n => [n]
        | none => st.cb),
      cb := [], cbId := none }

/-- `flushTableGroup`. -/
def flushTB (st : SVState) : SVState :=
  match st.tb with
  | [] => st
  | _ =>
    { st with
      out := st.out ++ (match transformParagraphsToTable st.tb with
        | some n => [n]
        | none => st.tb),
      tb := [], tbId := none }

/-- `flushHtmlBlockGroup`. -/
def flushHB (st : SVState) : SVState :=
  match st.hb with
  | [] => st
  | _ =>
    { st with
      out := st.out ++ (match transformParagraphsToHtmlBlock st.hb with
        | some n => [n]
        | none => st.hb),
      hb := [], hbId := none }

/-- `flushMathBlockGroup`. -/
def flushMB (st : SVState) : SVState :=
  match st.mb with
  | [] => st
  | _ =>
    { st with
      out := st.out ++ (match transformParagraphsToMathBlock st.mb with
        | some n => [n]
        | none => st.mb),
      mb := [], mbId := none }

/-- All four flushes in the order used between groups and at the end
(code, table, html, math). -/
def flushAll (st : SVState) : SVState := flushMB (flushHB (flushTB (flushCB st)))

/-- The paragraph branch of the structuring fold: group paragraphs are
buffered (flushing the other kinds first, and their own kind on an id
change); plain paragraphs flush everything and may convert back to an image
or horizontal rule. -/
def structPara (st : SVState) (c : MNode) : SVState :=
  let a := nodeAttrs c
  match a.codeBlockId with
  | some id =>
    let st1 := flushMB (flushHB (flushTB st))
    let st2 := if st1.cbId ≠ none ∧ st1.cbId ≠ some id then flushCB st1 else st1
    { st2 with cb := st2.cb ++ [c], cbId := some id }
  | none =>
  match a.tableId with
  | some id =>
    let st1 := flushMB (flushHB (flushCB st))
    let st2 := if st1.tbId ≠ none ∧ st1.tbId ≠ some id then flushTB st1 else st1
    { st2 with tb := st2.tb ++ [c], tbId := some id }
  | none =>
  match a.htmlBlockId with
  | some id =>
    let st1 := flushMB (flushTB (flushCB st))
    let st2 := if st1.hbId ≠ none ∧ st1.hbId ≠ some id then flushHB st1 else st1
    { st2 with hb := st2.hb ++ [c], hbId := some id }
  | none =>
  match a.mathBlockId with
  | some id =>
    let st1 := flushHB (flushTB (flushCB st))
    let st2 := if st1.mbId ≠ none ∧ st1.mbId ≠ some id then flushMB st1 else st1
    { st2 with mb := st2.mb ++ [c], mbId := some id }
  | none =>
    let st1 := flushAll st
    if a.imageAttrs ≠ none then
      { st1 with out := st1.out ++ [(transformParagraphToImage c).getD c] }
    else if a.hrSource then
      { st1 with out := st1.out ++ [(transformParagraphToHr c).getD c] }
    else
      { st1 with out := st1.out ++ [c] }

mutual
/-- `processNodeForBlockConversion`: run the grouping fold over the
children, final-flush, and rebuild the node when the content changed
(`!newContent.eq(node.content)`). -/
def structNode : MNode → MNode
  | n@(.node t a cs) =>
    if 0 < lsize cs then
      let st := flushAll (structFold cs {})
      let newContent := MList.ofList st.out
      if newContent ≠ cs then .node t a newContent else n
    else n
  | n => n
/-- The child fold shared by `convertParagraphsToBlocks` and
`processNodeForBlockConversion`: paragraphs go through the grouping branch,
every other child flushes all groups and is processed recursively. -/
def structFold : MList → SVState → SVState
  | .nil, st => st
  | .cons c cs, st =>
    if nodeType c = "paragraph" then structFold cs (structPara st c)
    else
      let st1 := flushAll st
      structFold cs { st1 with out := st1.out ++ [structNode c] }
end

/-- `convertParagraphsToBlocks`: whole-document structuring (one replace
step when the result is nonempty). -/
def convertParagraphsToBlocks (doc : MNode) : MNode :=
  match doc with
  | .node t a cs =>
    let st := flushAll (structFold cs {})
    if st.out ≠ [] then .node t a (MList.ofList st.out) else doc
  | d => d

/-! ### Derived notions used by the specification claims -/

mutual
/-- Concatenation of all text runs of a node, in order (the spec's
"concatenating all text runs of a block"). -/
def concatNode : MNode → List Char
  | .text s _ => s.data
  | .node _ _ cs => concatList cs
def concatList : MList → List Char
  | .nil => []
  | .cons c cs => concatNode c ++ concatList cs
end

/-- Concatenation over a whole document: the text of every block, blocks
joined by the line separator. -/
def docConcat (d : MNode) : List Char :=
  joinChar '\n' ((childrenOf d).map concatNode)

/-- Characters that no inline matcher (nor the escape scanner) can start a
match at, and that keep a line free of CR/LF: used to characterize plain
inline text. -/
def plainInline (c : Char) : Bool :=
  !(c == '*' || c == '_' || c == '`' || c == '~' || c == '=' || c == '[' ||
    c == '$' || c == '\\' || c == '\n' || c == '\r')

/-- The mark type names the milkup parser ever creates. -/
def allowedMarkNames : List String :=
  ["strong", "emphasis", "code_inline", "strikethrough", "highlight", "link",
   "math_inline", "syntax_marker"]

mutual
/-- Every text run in the tree carries only marks the parser creates (in
particular no semantic mark is named `escape`). -/
def wellMarkedN : MNode → Bool
  | .text _ ms => ms.all (fun m => decide (m.name ∈ allowedMarkNames))
  | .node _ _ cs => wellMarkedL cs
def wellMarkedL : MList → Bool
  | .nil => true
  | .cons c cs => wellMarkedN c && wellMarkedL cs
end

mutual
/-- A subtree the source-view transform leaves alone: no node of one of the
six flattened types, and no paragraph stamped with block-group attributes
(`codeBlockId`/`tableId`/`htmlBlockId`/`mathBlockId`/`imageAttrs`/
`hrSource`). -/
def neutralN : MNode → Bool
  | .text _ _ => true
  | .node t a cs =>
    !(t == "code_block" || t == "image" || t == "horizontal_rule" ||
      t == "table" || t == "html_block" || t == "math_block") &&
    (!(t == "paragraph") ||
      (a.codeBlockId == none && a.tableId == none && a.htmlBlockId == none &&
       a.mathBlockId == none && a.imageAttrs == none && !a.hrSource)) &&
    neutralL cs
def neutralL : MList → Bool
  | .nil => true
  | .cons c cs => neutralN c && neutralL cs
end

/-- A code block that survives the flatten/structure round trip untouched:
schema-default attributes apart from a newline-free language, and content
that is either empty or a single unmarked text run without trailing
newline. -/
def safeCodeBlock (a : Attrs) (cs : MList) : Bool :=
  a == { language := a.language } && decide ('\n' ∉ a.language.data) &&
  (match cs with
   | .nil => true
   | .cons (.text s []) .nil =>
     s != "" && decide (stripTrailingNewlines s.data = s.data)
   | _ => false)

/-- An image node that survives the round trip: schema-default attributes
apart from `src`/`alt`/`title`, no children, a nonempty `src` free of
whitespace and `)`, an `alt` free of `]`, and a title free of `"`. -/
def safeImage (a : Attrs) (cs : MList) : Bool :=
  a == { src := a.src, alt := a.alt, title := a.title } && cs == .nil &&
  a.src != "" &&
  a.src.data.all (fun c => !(isWsChar c || c == ')')) &&
  a.alt.data.all (fun c => !(c == ']')) &&
  a.title.data.all (fun c => !(c == '"'))

/-- A top-level child covered by the restricted round-trip theorem. -/
def safeChild (n : MNode) : Bool :=
  neutralN n ||
  (match n with
   | .node "code_block" a cs => safeCodeBlock a cs
   | .node "image" a cs => safeImage a cs
   | .node "horizontal_rule" a cs => a == {} && cs == .nil
   | _ => false)

/-! ### Claim C9: line-ending invariance of `parse` -/

theorem normalize_eq_self (cs : List Char) (h : '\r' ∉ cs) : normalizeNewlines cs = cs := by
  induction cs with
  | nil => rfl
  | cons c rest ih =>
    have hc : c ≠ '\r' := by rintro rfl; exact h (List.mem_cons_self _ _)
    have hr : '\r' ∉ rest := fun hm => h (List.mem_cons_of_mem _ hm)
    rw [normalizeNewlines.eq_def]
    split <;> simp_all [normalizeNewlines]

theorem noCR_normalize (cs : List Char) : '\r' ∉ normalizeNewlines cs := by
  induction cs using normalizeNewlines.induct with
  | case1 => simp [normalizeNewlines]
  | case2 rest ih =>
    simp only [normalizeNewlines, List.mem_cons]
    rintro (h | h)
    · exact absurd h (by decide)
    · exact ih h
  | case3 rest h1 ih =>
    rw [normalizeNewlines.eq_def]
    split <;> simp_all [List.mem_cons] <;> tauto
  | case4 c rest h1 h2 ih =>
    rw [normalizeNewlines.eq_def]
    split <;> simp_all [List.mem_cons] <;> tauto

theorem normalize_idem (cs : List Char) :
    normalizeNewlines (normalizeNewlines cs) = normalizeNewlines cs :=
  normalize_eq_self _ (noCR_normalize cs)

/-- C9: although LF normalization is stated as a caller precondition,
`parse` itself replaces every CRLF and lone CR by LF first, so its output
is invariant under the input's line-ending convention:
`parse m = parse (normalize m)`. -/
theorem parse_newline_invariant (md : String) :
    parse md = parse ⟨normalizeNewlines md.data⟩ := by
  show parse md = parse (String.mk (normalizeNewlines md.data))
  unfold parse parseBlocks linesOf
  rw [show (String.mk (normalizeNewlines md.data)).data = normalizeNewlines md.data from rfl,
      normalize_idem]

/-! ### Claim C10: empty input and empty block lists -/

/-- C10: the empty input parses to a document with exactly one empty
paragraph; more generally, whenever the block pass yields no nodes the
document gets the single empty paragraph, so a parsed document is never
childless. -/
theorem parse_never_childless :
    parse "" = mk "doc" {} [emptyPara] ∧
    (∀ md : String, parseBlocks (linesOf md) = [] → parse md = mk "doc" {} [emptyPara]) ∧
    (∀ md : String, childrenOf (parse md) ≠ []) := by
  refine ⟨by decide, ?_, ?_⟩
  · intro md h
    unfold parse
    rw [h]
    rfl
  · intro md
    unfold parse
    cases h : parseBlocks (linesOf md) with
    | nil => simp [mk, childrenOf, MList.ofList, MList.toList]
    | cons b bs => simp [mk, childrenOf, MList.ofList, MList.toList]

/-- Witness for C10 at the empty input. -/
theorem parse_never_childless_witness :
    parseBlocks (linesOf "") = [] ∧ parse "" = mk "doc" {} [emptyPara] :=
  ⟨by decide, parse_never_childless.2.1 "" (by decide)⟩

/-! ### Claim C8: table alignment extraction -/

/-- C8: table column alignments come from the separator row's colons (both
⇒ center, trailing ⇒ right, leading ⇒ left, neither ⇒ none); in particular
`| A | B |` over `|:---|---:|` gives column 0 `left` and column 1 `right`.
One blank line between header and separator is tolerated, and data rows are
consumed across interior blank lines until the first non-table-row line
(`next` below becomes a paragraph). -/
theorem parseTable_alignments :
    parse "| A | B |\n|:---|---:|" =
      mk "doc" {}
        [mk "table" {}
          [mk "table_row" {}
            [mk "table_header" { align := some "left" } [txt "A"],
             mk "table_header" { align := some "right" } [txt "B"]]]] ∧
    parse "| A | B | C | D |\n\n|:---|---:|:---:|---|\n| a | b | c | d |\n\n| e | f | g | h |\nnext" =
      mk "doc" {}
        [mk "table" {}
          [mk "table_row" {}
            [mk "table_header" { align := some "left" } [txt "A"],
             mk "table_header" { align := some "right" } [txt "B"],
             mk "table_header" { align := some "center" } [txt "C"],
             mk "table_header" {} [txt "D"]],
           mk "table_row" {}
            [mk "table_cell" { align := some "left" } [txt "a"],
             mk "table_cell" { align := some "right" } [txt "b"],
             mk "table_cell" { align := some "center" } [txt "c"],
             mk "table_cell" {} [txt "d"]],
           mk "table_row" {}
            [mk "table_cell" { align := some "left" } [txt "e"],
             mk "table_cell" { align := some "right" } [txt "f"],
             mk "table_cell" { align := some "center" } [txt "g"],
             mk "table_cell" {} [txt "h"]]],
         mk "paragraph" {} [txt "next"]] := by
  constructor <;> decide

/-! ### Claim C7: escape parsing and the escape visibility window -/

/-- C7: `a\*b` parses into a plain `a` run, a backslash run tagged
`syntax_marker(escape)`, a plain `*` run that carries no mark at all, and a
plain `b` run; the single escape region spans positions `[2,3)`, and with
`sourceView = false` it is shown exactly while the cursor lies in the
2-character window `[2, 4]` starting at the backslash. -/
theorem escape_window :
    parse "a\\*b" =
      mk "doc" {}
        [mk "paragraph" {}
          [txt "a", MNode.text "\\" [syntaxMarker "escape"], txt "*", txt "b"]] ∧
    findSyntaxMarkerRegions (parse "a\\*b") = [⟨2, 3, "escape"⟩] ∧
    (∀ p : Nat, p ≤ docContentSize (parse "a\\*b") →
      (shouldShow (parse "a\\*b") p false ⟨2, 3, "escape"⟩ = true ↔ (2 ≤ p ∧ p ≤ 2 + 2))) := by
  refine ⟨by decide, by decide, ?_⟩
  decide

/-- Witness for C7 at cursor position 3 (on the escaped character). -/
theorem escape_window_witness :
    3 ≤ docContentSize (parse "a\\*b") ∧
    (shouldShow (parse "a\\*b") 3 false ⟨2, 3, "escape"⟩ = true ↔ (2 ≤ 3 ∧ 3 ≤ 2 + 2)) :=
  ⟨by decide, escape_window.2.2 3 (by decide)⟩

/-! ### Claim C4: kept inline matches never partially overlap -/

theorem filterGreedy_ge :
    ∀ (ms : List MatchInfo) (le : Nat), ∀ m ∈ filterGreedy ms le, le ≤ m.mstart := by
  intro ms
  induction ms with
  | nil => intro le m hm; simp [filterGreedy] at hm
  | cons m' ms ih =>
    intro le m hm
    unfold filterGreedy at hm
    split at hm
    · rcases List.mem_cons.mp hm with rfl | hm'
      · assumption
      · have := ih m'.mend m hm'
        unfold MatchInfo.mend at this
        omega
    · exact ih le m hm

theorem filterGreedy_pairwise :
    ∀ (ms : List MatchInfo) (le : Nat),
      List.Pairwise (fun a b => a.mend ≤ b.mstart) (filterGreedy ms le) := by
  intro ms
  induction ms with
  | nil => intro le; simp [filterGreedy]
  | cons m' ms ih =>
    intro le
    unfold filterGreedy
    split
    · exact List.Pairwise.cons (fun b hb => filterGreedy_ge ms m'.mend b hb) (ih m'.mend)
    · exact ih le

/-- C4: at a single nesting level of `parseInlineWithSyntax`, the matches
kept after the sort (start ascending, end descending) and the greedy
left-to-right filter are pairwise disjoint in document order — each kept
match ends at or before the next one starts, so no two kept matches
partially overlap (nesting only arises through the recursion into match
content); and every collected candidate with an empty prefix or empty
content has already been discarded. -/
theorem inline_matches_nonoverlap (cs : List Char) :
    List.Pairwise (fun a b => a.mend ≤ b.mstart)
      (filterGreedy (sortMatches (collectMatches cs)) 0) ∧
    ∀ m ∈ collectMatches cs, m.pre ≠ "" ∧ m.content ≠ "" := by
  refine ⟨filterGreedy_pairwise _ 0, ?_⟩
  intro m hm
  unfold collectMatches at hm
  simp only [List.mem_append, List.mem_filter, decide_eq_true_eq] at hm
  tauto

/-- Witness for C4 on `**a** *b*` (two kept matches, both nonempty). -/
theorem inline_matches_nonoverlap_witness :
    ({ mtype := "strong", mstart := 0, mlen := 7, pre := "**", content := "a*b", suf := "**" } : MatchInfo) ∈ collectMatches "**a*b**".data ∧
    ({ mtype := "strong", mstart := 0, mlen := 7, pre := "**", content := "a*b", suf := "**" } : MatchInfo).pre ≠ "" ∧
    ({ mtype := "strong", mstart := 0, mlen := 7, pre := "**", content := "a*b", suf := "**" } : MatchInfo).content ≠ "" :=
  ⟨by decide, (inline_matches_nonoverlap "**a*b**".data).2 _ (by decide)⟩

/-! ### Claim C5: unterminated fenced code blocks -/

theorem codeCollect_none (rest : List (List Char)) :
    ∀ indent level, (∀ r ∈ rest, isCodeEnd r = false) →
      codeCollect indent level rest = none := by
  induction rest with
  | nil => intro indent level _; rfl
  | cons l rest ih =>
    intro indent level h
    have hl : isCodeEnd l = false := h l (List.mem_cons_self _ _)
    have hr : ∀ r ∈ rest, isCodeEnd r = false := fun r hm => h r (List.mem_cons_of_mem _ hm)
    have ihr : ∀ a b, codeCollect a b rest = none := fun a b => ih a b hr
    unfold codeCollect
    simp [hl, ihr]

/-- Counterexample to C5 as stated: ```` ```js ```` followed by
`console.log(1)` with no closing fence parses as TWO paragraphs (one per
line), not as one paragraph. -/
theorem unterminated_fence_counterexample :
    childrenOf (parse "```js\nconsole.log(1)") =
      [mk "paragraph" {} [txt "```js"], mk "paragraph" {} [txt "console.log(1)"]] ∧
    (childrenOf (parse "```js\nconsole.log(1)")).length ≠ 1 := by
  constructor <;> decide

/-- C5 (amended): an opener with no closing fence before end of input makes
`parseCodeBlock` fail (`none`), so no `code_block` node is emitted for it
and each line falls through to paragraph parsing; in particular
```` ```js\nconsole.log(1) ```` parses as two paragraphs, one per source
line, not as a `code_block`. -/
theorem unterminated_fence_fallback :
    (∀ (l : List Char) (rest : List (List Char)),
      (∀ r ∈ rest, isCodeEnd r = false) → parseCodeBlock l rest = none) ∧
    parse "```js\nconsole.log(1)" =
      mk "doc" {}
        [mk "paragraph" {} [txt "```js"], mk "paragraph" {} [txt "console.log(1)"]] := by
  constructor
  · intro l rest h
    unfold parseCodeBlock
    cases hm : matchCodeStart l with
    | none => rfl
    | some v =>
      obtain ⟨indent, lang, tail⟩ := v
      dsimp only
      rw [codeCollect_none rest indent 0 h]
  · decide

/-- Witness for C5 on the concrete unterminated input. -/
theorem unterminated_fence_fallback_witness :
    (∀ r ∈ ["console.log(1)".data], isCodeEnd r = false) ∧
    parseCodeBlock "```js".data ["console.log(1)".data] = none :=
  ⟨by decide, unterminated_fence_fallback.1 "```js".data ["console.log(1)".data] (by decide)⟩

/-! ### Claim C6: broken groups degrade to plain paragraphs -/

theorem structFold_codeGroup :
    ∀ (ps : List MNode) (id : Nat) (st : SVState),
      (∀ p ∈ ps, nodeType p = "paragraph" ∧ (nodeAttrs p).codeBlockId = some id) →
      st.tb = [] → st.hb = [] → st.mb = [] →
      (st.cbId = none ∨ st.cbId = some id) →
      structFold (MList.ofList ps) st =
        { st with cb := st.cb ++ ps,
                  cbId := if ps.isEmpty then st.cbId else some id } := by
  intro ps
  induction ps with
  | nil => intro id st _ _ _ _ _; simp [MList.ofList, structFold]
  | cons p ps ih =>
    intro id st hps htb hhb hmb hcb
    obtain ⟨hpt, hpid⟩ := hps p (List.mem_cons_self _ _)
    have hrest := fun q hq => hps q (List.mem_cons_of_mem _ hq)
    cases p with
    | text s m => simp [nodeType] at hpt
    | node t a cs =>
      have ht : t = "paragraph" := hpt
      subst ht
      show structFold (.cons _ (MList.ofList ps)) st = _
      unfold structFold
      have hcond : nodeType (MNode.node "paragraph" a cs) = "paragraph" := rfl
      rw [if_pos hcond]
      have hstep : structPara st (MNode.node "paragraph" a cs) =
          { st with cb := st.cb ++ [MNode.node "paragraph" a cs], cbId := some id } := by
        unfold structPara
        simp only [nodeAttrs] at hpid ⊢
        rw [hpid]
        dsimp only
        have h1 : flushTB st = st := by unfold flushTB; rw [htb]
        have h2 : flushHB st = st := by unfold flushHB; rw [hhb]
        have h3 : flushMB st = st := by unfold flushMB; rw [hmb]
        rw [h1, h2, h3]
        rcases hcb with h | h <;> rw [if_neg (by simp [h])]
      rw [hstep]
      rw [ih id _ hrest (by simp [htb]) (by simp [hhb]) (by simp [hmb]) (Or.inr rfl)]
      simp [List.append_assoc]

/-- C6: a flattened code-block group whose joined text no longer matches
the fence grammar is neither dropped nor force-coerced by
`convertParagraphsToBlocks` (a total function, so nothing is thrown): the
paragraphs are left in place verbatim, literal text included. -/
theorem broken_code_group_preserved (ps : List MNode) (a : Attrs) (id : Nat)
    (hne : ps ≠ [])
    (hps : ∀ p ∈ ps, nodeType p = "paragraph" ∧ (nodeAttrs p).codeBlockId = some id)
    (hfail : fenceMatch (joinChar '\n' (ps.map (fun p => (textContent p).data))) = none) :
    convertParagraphsToBlocks (MNode.node "doc" a (MList.ofList ps)) =
      MNode.node "doc" a (MList.ofList ps) := by
  obtain ⟨p0, ps'⟩ := List.exists_cons_of_ne_nil hne
  unfold convertParagraphsToBlocks
  dsimp only
  rw [structFold_codeGroup ps id {} hps rfl rfl rfl (Or.inl rfl)]
  have hfl : transformParagraphsToCodeBlock ps = none := by
    unfold transformParagraphsToCodeBlock
    obtain ⟨t, rfl⟩ := ps'
    rw [hfail]
  have hcb : flushCB { out := ([] : List MNode),
                       cb := [] ++ ps,
                       cbId := if ps.isEmpty then (none : Option Nat) else some id } =
      { out := ps } := by
    unfold flushCB
    obtain ⟨t, rfl⟩ := ps'
    simp only [List.nil_append]
    rw [hfl]
  unfold flushAll
  rw [hcb]
  have h2 : flushTB { out := ps } = { out := ps } := by unfold flushTB; rfl
  have h3 : flushHB { out := ps } = { out := ps } := by unfold flushHB; rfl
  have h4 : flushMB { out := ps } = { out := ps } := by unfold flushMB; rfl
  rw [h2, h3, h4]
  obtain ⟨t, rfl⟩ := ps'
  simp

/-- A flattened code-block group whose first line was corrupted so it no
longer starts with the opening fence. -/
def corruptFenceGroup : List MNode :=
  [MNode.node "paragraph"
     { codeBlockId := some 0, lineIndex := 0, totalLines := 3, language := "js" }
     (.cons (txt "x``js") .nil),
   MNode.node "paragraph"
     { codeBlockId := some 0, lineIndex := 1, totalLines := 3, language := "js" }
     (.cons (txt "abc") .nil),
   MNode.node "paragraph"
     { codeBlockId := some 0, lineIndex := 2, totalLines := 3, language := "js" }
     (.cons (txt "```") .nil)]

/-- Witness for C6: structuring the corrupted group leaves the three
paragraphs untouched (no `code_block` is forced and nothing is dropped). -/
theorem broken_code_group_preserved_witness :
    convertParagraphsToBlocks (MNode.node "doc" {} (MList.ofList corruptFenceGroup)) =
      MNode.node "doc" {} (MList.ofList corruptFenceGroup) :=
  broken_code_group_preserved corruptFenceGroup {} 0 (by decide) (by decide) (by decide)

/-! ### C3: visibility of syntax-marker regions -/

mutual
/-- Resolving a position returns a node of the same tree, so well-markedness
is preserved. -/
theorem wm_resolveNode : ∀ (n : MNode) (cst p : Nat),
    wellMarkedN n = true → wellMarkedN (resolveNode n cst p).1 = true
  | .text s ms, cst, p, h => h
  | .node t a cs, cst, p, h => by
    unfold resolveNode
    exact wm_resolveKids (.node t a cs) cst cs cst p h h
theorem wm_resolveKids : ∀ (parent : MNode) (pst : Nat) (cs : MList) (off p : Nat),
    wellMarkedN parent = true → wellMarkedL cs = true →
    wellMarkedN (resolveKids parent pst cs off p).1 = true
  | parent, pst, .nil, off, p, hp, hcs => hp
  | parent, pst, .cons c cs, off, p, hp, hcs => by
    have hc : wellMarkedN c = true := by
      have := hcs
      unfold wellMarkedL at this
      exact (Bool.and_eq_true _ _ |>.mp this).1
    have hrest : wellMarkedL cs = true := by
      have := hcs
      unfold wellMarkedL at this
      exact (Bool.and_eq_true _ _ |>.mp this).2
    unfold resolveKids
    split
    · exact hp
    · split
      · cases c with
        | text s ms => exact hp
        | node t a kids =>
          dsimp only
          by_cases himg : (t = "image" ∨ t = "horizontal_rule")
          · rw [if_pos himg]; exact hp
          · rw [if_neg himg]; exact wm_resolveNode (.node t a kids) (off+1) p hc
      · exact wm_resolveKids parent pst cs (off + msize c) p hp hrest
end

/-- `resolveDoc` preserves well-markedness. -/
theorem wm_resolveDoc (doc : MNode) (p : Nat) (h : wellMarkedN doc = true) :
    wellMarkedN (resolveDoc doc p).1 = true := by
  cases doc with
  | text s ms => exact h
  | node t a cs => exact wm_resolveKids (.node t a cs) 0 cs 0 p h h

/-- A full mark region found for `name` is labelled `name`. -/
theorem findFullMarkRegion_name (parent : MNode) (name : String) (hint pst : Nat)
    (r : String × Nat × Nat) (h : findFullMarkRegion parent name hint pst = some r) :
    r.1 = name := by
  cases parent with
  | text s ms =>
    unfold findFullMarkRegion at h
    simp [List.find?] at h
  | node t a cs =>
    unfold findFullMarkRegion at h
    dsimp only at h
    split at h
    · cases h; rfl
    · split at h
      · cases h; rfl
      · cases h

/-- Every semantic region produced by the mark loop is named after one of
the marks it was given. -/
theorem semFromMarks_names :
    ∀ (ms : List Mark) (parent : MNode) (pst cst : Nat) (found : List String)
      (r : String × Nat × Nat), r ∈ (semFromMarks parent pst cst ms found).1 →
      ∃ m ∈ ms, r.1 = m.name := by
  intro ms
  induction ms with
  | nil => intro parent pst cst found r h; simp [semFromMarks] at h
  | cons m ms ih =>
    intro parent pst cst found r h
    unfold semFromMarks at h
    split at h
    · split at h
      · rcases List.mem_cons.mp h with rfl | h'
        · rename_i hr
          exact ⟨m, List.mem_cons_self _ _, findFullMarkRegion_name _ _ _ _ _ hr⟩
        · obtain ⟨m', hm', hn⟩ := ih parent pst cst _ r h'
          exact ⟨m', List.mem_cons_of_mem _ hm', hn⟩
      · obtain ⟨m', hm', hn⟩ := ih parent pst cst _ r h
        exact ⟨m', List.mem_cons_of_mem _ hm', hn⟩
    · obtain ⟨m', hm', hn⟩ := ih parent pst cst _ r h
      exact ⟨m', List.mem_cons_of_mem _ hm', hn⟩

/-- Every semantic region produced by the child loop is named after a mark
of one of the children. -/
theorem semKids_names :
    ∀ (cs : MList) (parent : MNode) (pst p off : Nat) (found : List String)
      (r : String × Nat × Nat), r ∈ semKids parent pst p cs off found →
      ∃ c ∈ cs.toList, ∃ m ∈ nodeMarks c, r.1 = m.name
  | .nil, parent, pst, p, off, found, r, h => by simp [semKids] at h
  | .cons c cs, parent, pst, p, off, found, r, h => by
    unfold semKids at h
    dsimp only at h
    by_cases hin : off ≤ p ∧ p ≤ off + msize c
    · rw [if_pos hin] at h
      rcases hsf : semFromMarks parent pst off (nodeMarks c) found with ⟨rs, found'⟩
      rw [hsf] at h
      dsimp only at h
      rcases List.mem_append.mp h with h' | h'
      · have hmem : r ∈ (semFromMarks parent pst off (nodeMarks c) found).1 := by
          rw [hsf]; exact h'
        obtain ⟨m, hm, hn⟩ := semFromMarks_names _ parent pst off found r hmem
        exact ⟨c, by simp [MList.toList], m, hm, hn⟩
      · obtain ⟨c', hc', rest⟩ := semKids_names cs parent pst p _ _ r h'
        exact ⟨c', by simp [MList.toList, hc'], rest⟩
    · rw [if_neg hin] at h
      obtain ⟨c', hc', rest⟩ := semKids_names cs parent pst p _ _ r h
      exact ⟨c', by simp [MList.toList, hc'], rest⟩

/-- A member of a well-marked child list is well-marked. -/
theorem wellMarkedL_mem :
    ∀ (cs : MList) (c : MNode), c ∈ cs.toList → wellMarkedL cs = true → wellMarkedN c = true
  | .nil, c, h, _ => by simp [MList.toList] at h
  | .cons x cs, c, h, hw => by
    have hx : wellMarkedN x = true ∧ wellMarkedL cs = true := by
      unfold wellMarkedL at hw
      exact Bool.and_eq_true _ _ |>.mp hw
    rcases List.mem_cons.mp (by simpa [MList.toList] using h) with rfl | h'
    · exact hx.1
    · exact wellMarkedL_mem cs c h' hx.2

/-- Marks of a well-marked node have allowed names. -/
theorem wm_marks (c : MNode) (m : Mark) (hw : wellMarkedN c = true) (hm : m ∈ nodeMarks c) :
    m.name ∈ allowedMarkNames := by
  cases c with
  | text s ms =>
    unfold wellMarkedN at hw
    rw [List.all_eq_true] at hw
    have := hw m hm
    exact of_decide_eq_true this
  | node t a cs => simp [nodeMarks] at hm

/-- An active semantic region of a well-marked document is named by an
allowed mark name or is the synthetic `heading` region. -/
theorem active_allowed (doc : MNode) (p : Nat) (hwm : wellMarkedN doc = true) :
    ∀ a ∈ getActiveSemanticRegions doc p, a.1 ∈ allowedMarkNames ∨ a.1 = "heading" := by
  intro a ha
  rcases hres : resolveDoc doc p with ⟨parent, pstart⟩
  have hparent : wellMarkedN parent = true := by
    have hh := wm_resolveDoc doc p hwm
    rw [hres] at hh
    exact hh
  have hinline : ∀ b ∈ findSemanticRegionsAt doc p,
      b.1 ∈ allowedMarkNames ∨ b.1 = "heading" := by
    intro b hb
    unfold findSemanticRegionsAt at hb
    rw [hres] at hb
    dsimp only at hb
    cases parent with
    | text s ms => simp at hb
    | node t attrs cs =>
      dsimp only at hb
      by_cases htb : isTextblockType t = true
      · rw [if_pos htb] at hb
        obtain ⟨c, hc, m, hm, hn⟩ := semKids_names cs (.node t attrs cs) pstart p pstart [] b hb
        left
        rw [hn]
        refine wm_marks c m ?_ hm
        refine wellMarkedL_mem cs c hc ?_
        unfold wellMarkedN at hparent
        exact hparent
      · rw [if_neg htb] at hb
        simp at hb
  unfold getActiveSemanticRegions at ha
  rw [hres] at ha
  dsimp only at ha
  split at ha
  · rcases List.mem_append.mp ha with h' | h'
    · exact hinline a h'
    · simp at h'
      rw [h']
      exact Or.inr rfl
  · exact hinline a ha

/-- The final `if (!shouldShow)` step of `computeDecorations` as a
disjunction. -/
theorem if_not_bool (b c : Bool) : (if !b then c else b) = (b || c) := by
  cases b <;> cases c <;> rfl

/-- `shouldShow` in closed form: the escape window for escape markers, the
related-active-semantic-region test otherwise, always weakened by the direct
cursor-in-region test. -/
theorem shouldShow_eq (doc : MNode) (p : Nat) (r : SRegion) :
    shouldShow doc p false r =
      ((if r.stype == "escape" then decide (r.rfrom ≤ p ∧ p ≤ r.rto + 1)
        else (getActiveSemanticRegions doc p).any (fun a =>
          isSyntaxTypeRelated r.stype a.1 &&
          decide (a.2.1 ≤ r.rfrom ∧ r.rto ≤ a.2.2)))
       || decide (r.rfrom ≤ p ∧ p ≤ r.rto)) := by
  unfold shouldShow
  dsimp only
  rw [if_not_bool]
  congr 1
  simp only [Bool.not_false, Bool.true_and]
  by_cases hesc : (r.stype == "escape") = true
  · rw [if_pos hesc, if_pos hesc]
  · rw [if_neg hesc, if_neg hesc]
    cases getActiveSemanticRegions doc p with
    | nil => simp
    | cons a as => simp

/-- The visibility criterion as an if-and-only-if, for well-marked
documents (the parser never creates a semantic mark named `escape`, so the
semantic branch never fires for escape markers). -/
theorem shouldShow_visibility_iff (doc : MNode) (p : Nat) (r : SRegion)
    (hwm : wellMarkedN doc = true) :
    (shouldShow doc p false r = true ↔
      ((r.rfrom ≤ p ∧ p ≤ r.rto) ∨
       (∃ a ∈ getActiveSemanticRegions doc p,
          isSyntaxTypeRelated r.stype a.1 = true ∧ a.2.1 ≤ r.rfrom ∧ r.rto ≤ a.2.2) ∨
       (r.stype = "escape" ∧ r.rfrom ≤ p ∧ p ≤ r.rto + 1))) := by
  rw [shouldShow_eq]
  by_cases hesc : r.stype = "escape"
  · have hbeq : (r.stype == "escape") = true := beq_iff_eq.mpr hesc
    rw [if_pos hbeq]
    have hsem : ¬ ∃ a ∈ getActiveSemanticRegions doc p,
        isSyntaxTypeRelated r.stype a.1 = true ∧ a.2.1 ≤ r.rfrom ∧ r.rto ≤ a.2.2 := by
      rintro ⟨a, ha, hrel, hcont⟩
      rw [hesc] at hrel
      have hmem : a.1 ∈ syntaxTypeRelations "escape" :=
        of_decide_eq_true hrel
      have hrels : syntaxTypeRelations "escape" = ["escape"] := by decide
      rw [hrels] at hmem
      have ha1 : a.1 = "escape" := by simpa using hmem
      rcases active_allowed doc p hwm a ha with h1 | h1 <;>
        rw [ha1] at h1 <;> simp [allowedMarkNames] at h1
    constructor
    · intro h
      rcases Bool.or_eq_true _ _ |>.mp h with h1 | h1
      · exact Or.inr (Or.inr ⟨hesc, of_decide_eq_true h1⟩)
      · exact Or.inl (of_decide_eq_true h1)
    · rintro (h1 | h1 | h1)
      · exact Bool.or_eq_true _ _ |>.mpr (Or.inr (decide_eq_true h1))
      · exact absurd h1 hsem
      · exact Bool.or_eq_true _ _ |>.mpr (Or.inl (decide_eq_true h1.2))
  · have hne : ¬ ((r.stype == "escape") = true) := by
      intro hb
      exact hesc (beq_iff_eq.mp hb)
    rw [if_neg hne]
    constructor
    · intro h
      rcases Bool.or_eq_true _ _ |>.mp h with h1 | h1
      · obtain ⟨a, ha, hf⟩ := List.any_eq_true.mp h1
        obtain ⟨hrel, hcont⟩ := Bool.and_eq_true _ _ |>.mp hf
        exact Or.inr (Or.inl ⟨a, ha, hrel, of_decide_eq_true hcont⟩)
      · exact Or.inl (of_decide_eq_true h1)
    · rintro (h1 | ⟨a, ha, hrel, hc1, hc2⟩ | ⟨h1, _⟩)
      · exact Bool.or_eq_true _ _ |>.mpr (Or.inr (decide_eq_true h1))
      · refine Bool.or_eq_true _ _ |>.mpr (Or.inl ?_)
        exact List.any_eq_true.mpr
          ⟨a, ha, Bool.and_eq_true _ _ |>.mpr ⟨hrel, decide_eq_true ⟨hc1, hc2⟩⟩⟩
      · exact absurd h1 hesc

/-- C3: with `sourceView` false, a syntax-marker region is shown iff the
cursor lies within `[from, to]`, or the cursor lies within an active
semantic region whose type is related to the marker type and that contains
the marker, or (escape markers only) the cursor lies in the window
`[from, to + 1]`; otherwise it is hidden.  In particular, in the document
parsed from `**bold**` both `**` marker regions are visible exactly when
the cursor position lies in the strong span `[1, 9]`. -/
theorem computeDecorations_visibility (doc : MNode) (p : Nat) (r : SRegion)
    (hwm : wellMarkedN doc = true) :
    (shouldShow doc p false r = true ↔
      ((r.rfrom ≤ p ∧ p ≤ r.rto) ∨
       (∃ a ∈ getActiveSemanticRegions doc p,
          isSyntaxTypeRelated r.stype a.1 = true ∧ a.2.1 ≤ r.rfrom ∧ r.rto ≤ a.2.2) ∨
       (r.stype = "escape" ∧ r.rfrom ≤ p ∧ p ≤ r.rto + 1))) ∧
    (∀ q : Fin 11, visibleRegions (parse "**bold**") q.val =
       if 1 ≤ q.val ∧ q.val ≤ 9 then [⟨1, 3, "strong"⟩, ⟨7, 9, "strong"⟩] else []) := by
  refine ⟨shouldShow_visibility_iff doc p r hwm, by decide⟩

/-- Instance of the visibility criterion: the opening `**` of `**bold**`
with the cursor at position 5. -/
theorem computeDecorations_visibility_witness :
    wellMarkedN (parse "**bold**") = true ∧
    (shouldShow (parse "**bold**") 5 false ⟨1, 3, "strong"⟩ = true ↔
      ((1 ≤ 5 ∧ 5 ≤ 3) ∨
       (∃ a ∈ getActiveSemanticRegions (parse "**bold**") 5,
          isSyntaxTypeRelated "strong" a.1 = true ∧ a.2.1 ≤ 1 ∧ 3 ≤ a.2.2) ∨
       ("strong" = "escape" ∧ 1 ≤ 5 ∧ 5 ≤ 4))) :=
  ⟨by decide, (computeDecorations_visibility (parse "**bold**") 5 ⟨1, 3, "strong"⟩ (by decide)).1⟩

/-! ### C1: concatenation of text runs reproduces the source -/

/-- A character returned by indexing is a member of the list. -/
theorem cAt_mem (cs : List Char) (i : Nat) (c : Char) (h : cAt cs i = some c) : c ∈ cs :=
  List.get?_mem h

/-- In all-plain text no position holds a non-plain character. -/
theorem plain_not_at (cs : List Char) (hp : ∀ c ∈ cs, plainInline c = true)
    (i : Nat) (c : Char) (hc : plainInline c = false) : cAt cs i ≠ some c := by
  intro h
  have hm := hp c (cAt_mem cs i c h)
  rw [hc] at hm
  exact Bool.noConfusion hm

/-- Indexing as the head of the dropped suffix. -/
theorem get_drop_head : ∀ (cs : List Char) (i : Nat), cs.get? i = (cs.drop i).head?
  | [], 0 => rfl
  | [], _+1 => rfl
  | _ :: _, 0 => rfl
  | _ :: cs, i+1 => get_drop_head cs i

/-- A nonempty slice starts with the character at its start index. -/
theorem sub_head (cs : List Char) (i : Nat) (x : Char) (t : List Char) (n : Nat)
    (h : sub cs i n = x :: t) : cAt cs i = some x := by
  unfold sub at h
  unfold cAt
  rw [get_drop_head]
  cases hdrop : cs.drop i with
  | nil => rw [hdrop] at h; simp at h
  | cons a r =>
    rw [hdrop] at h
    cases n with
    | zero => simp at h
    | succ n =>
      rw [List.take_succ_cons] at h
      injection h with h1 _
      rw [h1]
      rfl

/-- No inline matcher fires inside all-plain text: each one requires a
delimiter character that `plainInline` excludes. -/
theorem strongEmphDelim_plain (cs : List Char) (hp : ∀ c ∈ cs, plainInline c = true)
    (i : Nat) (x : Char) (t : List Char) (hx : plainInline x = false) :
    strongEmphDelim cs i (x :: t) = none := by
  have hne : ¬(sub cs i 3 = x :: t) := fun hsub =>
    plain_not_at cs hp i x hx (sub_head cs i x t 3 hsub)
  unfold strongEmphDelim
  rw [if_neg hne]

theorem tryStrongEmph_plain (cs : List Char) (hp : ∀ c ∈ cs, plainInline c = true)
    (i : Nat) : tryStrongEmph cs i = none := by
  unfold tryStrongEmph
  rw [strongEmphDelim_plain cs hp i '*' ['*', '*'] (by decide)]
  dsimp only
  exact strongEmphDelim_plain cs hp i '_' ['_', '_'] (by decide)

theorem strongDelim_plain (cs : List Char) (hp : ∀ c ∈ cs, plainInline c = true)
    (i : Nat) (dc : Char) (hdc : plainInline dc = false) :
    strongDelim cs i dc = none := by
  have hb : decide (cAt cs i = some dc ∧ cAt cs (i+1) = some dc) = false := by
    apply decide_eq_false
    rintro ⟨h1, _⟩
    exact plain_not_at cs hp i dc hdc h1
  unfold strongDelim
  rw [hb]
  simp

theorem tryStrong_plain (cs : List Char) (hp : ∀ c ∈ cs, plainInline c = true)
    (i : Nat) : tryStrong cs i = none := by
  unfold tryStrong
  rw [strongDelim_plain cs hp i '*' (by decide)]
  dsimp only
  exact strongDelim_plain cs hp i '_' (by decide)

theorem emphStar_plain (cs : List Char) (hp : ∀ c ∈ cs, plainInline c = true)
    (i : Nat) : emphStar cs i = none := by
  have hb : decide (cAt cs i = some '*') = false := by
    apply decide_eq_false
    exact plain_not_at cs hp i '*' (by decide)
  unfold emphStar
  rw [hb]
  simp

theorem emphUnderscore_plain (cs : List Char) (hp : ∀ c ∈ cs, plainInline c = true)
    (i : Nat) : emphUnderscore cs i = none := by
  have hb : decide (cAt cs i = some '_') = false := by
    apply decide_eq_false
    exact plain_not_at cs hp i '_' (by decide)
  unfold emphUnderscore
  rw [hb]
  simp

theorem tryEmph_plain (cs : List Char) (hp : ∀ c ∈ cs, plainInline c = true)
    (i : Nat) : tryEmph cs i = none := by
  unfold tryEmph
  rw [emphStar_plain cs hp i]
  dsimp only
  exact emphUnderscore_plain cs hp i

theorem tryCodeInline_plain (cs : List Char) (hp : ∀ c ∈ cs, plainInline c = true)
    (i : Nat) : tryCodeInline cs i = none := by
  unfold tryCodeInline
  rw [if_neg (plain_not_at cs hp i '`' (by decide))]

theorem tryPair_plain (cs : List Char) (hp : ∀ c ∈ cs, plainInline c = true)
    (i : Nat) (dc : Char) (tname : String) (hdc : plainInline dc = false) :
    tryPair dc tname cs i = none := by
  have hne : ¬(cAt cs i = some dc ∧ cAt cs (i+1) = some dc) := by
    rintro ⟨h1, _⟩
    exact plain_not_at cs hp i dc hdc h1
  unfold tryPair
  rw [if_neg hne]

theorem tryStrike_plain (cs : List Char) (hp : ∀ c ∈ cs, plainInline c = true)
    (i : Nat) : tryStrike cs i = none :=
  tryPair_plain cs hp i '~' "strikethrough" (by decide)

theorem tryHighlight_plain (cs : List Char) (hp : ∀ c ∈ cs, plainInline c = true)
    (i : Nat) : tryHighlight cs i = none :=
  tryPair_plain cs hp i '=' "highlight" (by decide)

theorem tryLink_plain (cs : List Char) (hp : ∀ c ∈ cs, plainInline c = true)
    (i : Nat) : tryLink cs i = none := by
  have hb : decide (cAt cs i = some '[') = false := by
    apply decide_eq_false
    exact plain_not_at cs hp i '[' (by decide)
  unfold tryLink
  rw [hb]
  simp

theorem tryMathInline_plain (cs : List Char) (hp : ∀ c ∈ cs, plainInline c = true)
    (i : Nat) : tryMathInline cs i = none := by
  have hb : decide (cAt cs i = some '$') = false := by
    apply decide_eq_false
    exact plain_not_at cs hp i '$' (by decide)
  unfold tryMathInline
  rw [hb]
  simp

theorem tryEscape_plain (cs : List Char) (hp : ∀ c ∈ cs, plainInline c = true)
    (i : Nat) : tryEscape cs i = none := by
  unfold tryEscape
  rw [if_neg (plain_not_at cs hp i '\\' (by decide))]

/-- A scan with a matcher that never fires yields no matches. -/
theorem scanWith_none {α} (tryAt : Nat → Option α) (lenOf : α → Nat)
    (h : ∀ i, tryAt i = none) : ∀ (fuel i : Nat), scanWith tryAt lenOf fuel i = []
  | 0, _ => rfl
  | fuel+1, i => by
    unfold scanWith
    rw [h i]
    exact scanWith_none tryAt lenOf h fuel (i+1)

/-- All-plain text yields no candidate inline matches. -/
theorem collectMatches_plain (cs : List Char) (hp : ∀ c ∈ cs, plainInline c = true) :
    collectMatches cs = [] := by
  unfold collectMatches findAllWith
  rw [scanWith_none _ _ (tryStrongEmph_plain cs hp),
      scanWith_none _ _ (tryStrong_plain cs hp),
      scanWith_none _ _ (tryEmph_plain cs hp),
      scanWith_none _ _ (tryCodeInline_plain cs hp),
      scanWith_none _ _ (tryStrike_plain cs hp),
      scanWith_none _ _ (tryHighlight_plain cs hp),
      scanWith_none _ _ (tryLink_plain cs hp),
      scanWith_none _ _ (tryMathInline_plain cs hp)]
  rfl

/-- All-plain text contains no escapes. -/
theorem findEscapes_plain (cs : List Char) (hp : ∀ c ∈ cs, plainInline c = true) :
    findEscapes cs = [] := by
  unfold findEscapes
  exact scanWith_none _ _ (tryEscape_plain cs hp) _ _

/-- All-plain text contains no unprotected escapes. -/
theorem escapesOutside_plain (cs : List Char) (hp : ∀ c ∈ cs, plainInline c = true) :
    escapesOutside cs = [] := by
  unfold escapesOutside
  rw [findEscapes_plain cs hp]
  rfl

/-- The inline parser maps nonempty all-plain text to a single unmarked
text run. -/
theorem parseInlineCore_plain (cs : List Char) (inherited : List Mark) (f : Nat)
    (hne : cs ≠ []) (hp : ∀ c ∈ cs, plainInline c = true) :
    parseInlineCore (f + 2) (.top cs inherited) = [MNode.text ⟨cs⟩ inherited] := by
  show parseInlineCore (f + 1 + 1) (.top cs inherited) = _
  unfold parseInlineCore
  rw [if_neg hne]
  dsimp only
  rw [escapesOutside_plain cs hp]
  rw [if_neg (by simp : ¬(([] : List (Nat × Char)) ≠ []))]
  rw [collectMatches_plain cs hp]
  show parseInlineCore (f + 1) (.buildLoop cs inherited [] 0) = _
  unfold parseInlineCore
  dsimp only
  rw [if_pos (List.length_pos.mpr hne)]
  rw [List.drop_zero]

/-- `parseInlineWithSyntax` on nonempty all-plain text: one unmarked text
run carrying the text verbatim. -/
theorem parseInline_plain (cs : List Char) (hne : cs ≠ [])
    (hp : ∀ c ∈ cs, plainInline c = true) :
    parseInlineWithSyntax cs = [MNode.text ⟨cs⟩ []] := by
  unfold parseInlineWithSyntax
  show parseInlineCore ((cs.length + 2) * (cs.length + 2) * 4 + 14 + 2) (.top cs []) = _
  exact parseInlineCore_plain cs [] _ hne hp

/-- `dropWhile` distributes over appending one unmatched element. -/
theorem dropWhile_append_ne (p : Char → Bool) (l : List Char) (c : Char) (hc : p c = false) :
    List.dropWhile p (l ++ [c]) = List.dropWhile p l ++ [c] := by
  induction l with
  | nil => simp [List.dropWhile, hc]
  | cons a l ih =>
    by_cases ha : p a = true
    · simp [List.dropWhile_cons, ha, ih]
    · simp [List.dropWhile_cons, ha]

/-- Trimming the end keeps a non-whitespace head. -/
theorem trimEndL_cons (c : Char) (t : List Char) (hc : isWsChar c = false) :
    trimEndL (c :: t) = c :: trimEndL t := by
  unfold trimEndL
  rw [List.reverse_cons, dropWhile_append_ne _ _ _ hc, List.reverse_append]
  rfl

/-- A line starting with `#` is not blank. -/
theorem isBlank_hash (t : List Char) : isBlank ('#' :: t) = false := by
  unfold isBlank
  show (trimEndL ('#' :: t) == ([] : List Char)) = false
  rw [trimEndL_cons '#' t rfl]
  rfl

/-- A line starting with `#` is not a math fence. -/
theorem isMathFence_hash (t : List Char) : isMathFence ('#' :: t) = false := by
  unfold isMathFence
  show (trimEndL ('#' :: t) == ['$', '$']) = false
  rw [trimEndL_cons '#' t rfl]
  rfl

/-- Block scanners that precede the heading pattern all fail on a line
starting with `#`. -/
theorem parseCodeBlock_hash (t : List Char) (rest : List (List Char)) :
    parseCodeBlock ('#' :: t) rest = none := rfl

theorem matchMathInlineBlock_hash (t : List Char) :
    matchMathInlineBlock ('#' :: t) = none := rfl

theorem matchContainerStart_hash (t : List Char) :
    matchContainerStart ('#' :: t) = none := rfl

/-- The hash run of a heading line is exactly the replicated prefix. -/
theorem takeWhile_hash (content : List Char) :
    ∀ k, (List.replicate k '#' ++ ' ' :: content).takeWhile (· == '#') =
      List.replicate k '#'
  | 0 => rfl
  | k+1 => by
    show (('#' : Char) :: (List.replicate k '#' ++ ' ' :: content)).takeWhile (· == '#') =
      '#' :: List.replicate k '#'
    show ('#' : Char) :: (List.replicate k '#' ++ ' ' :: content).takeWhile (· == '#') =
      '#' :: List.replicate k '#'
    rw [takeWhile_hash content k]

/-- The heading pattern on `#^k` + one space + content starting with a
non-whitespace character: captures the hashes and the content. -/
theorem matchHeading_eval (k : Nat) (hchar : Char) (ct : List Char)
    (h1 : 1 ≤ k) (h6 : k ≤ 6) (hws : isWsChar hchar = false) :
    matchHeading (List.replicate k '#' ++ ' ' :: hchar :: ct) =
      some (List.replicate k '#', hchar :: ct) := by
  unfold matchHeading
  dsimp only
  rw [takeWhile_hash (hchar :: ct) k, List.length_replicate]
  rw [show (List.replicate k '#' ++ ' ' :: hchar :: ct).drop k = ' ' :: hchar :: ct from by
    conv in List.drop k => rw [show k = (List.replicate k '#').length from (List.length_replicate k '#').symm]
    exact List.drop_left _ _]
  rw [show (' ' :: hchar :: ct).takeWhile isWsChar = [' '] from by
    rw [List.takeWhile_cons, List.takeWhile_cons, hws]
    rfl]
  rw [if_pos ⟨h1, h6, by decide⟩]
  rfl

/-- Splitting at a separator that does not occur yields one piece. -/
theorem splitChar_no_sep : ∀ (sep : Char) (cs : List Char), sep ∉ cs →
    splitChar sep cs = [cs]
  | _, [], _ => rfl
  | sep, c :: cs, h => by
    have hc : (c == sep) = false := by
      apply beq_eq_false_iff_ne.mpr
      intro heq
      apply h
      rw [← heq]
      exact List.mem_cons_self c cs
    have ih := splitChar_no_sep sep cs (fun hm => h (List.mem_cons_of_mem _ hm))
    unfold splitChar
    dsimp only
    rw [ih, hc]
    rfl

/-- A single line without newline characters is split into itself. -/
theorem linesOf_single (cs : List Char) (hn : '\n' ∉ cs) (hr : '\r' ∉ cs) :
    linesOf ⟨cs⟩ = [cs] := by
  unfold linesOf
  rw [show (⟨cs⟩ : String).data = cs from rfl, normalize_eq_self cs hr]
  exact splitChar_no_sep '\n' cs hn

/-- The block parser on a single heading line emits exactly the heading
node: hash marker run, one literal space, inline content. -/
theorem parseGo_heading_line (f m : Nat) (hchar : Char) (ct : List Char)
    (h6 : m + 1 ≤ 6) (hws : isWsChar hchar = false) :
    parseGo (f + 2) (.blocks true [List.replicate (m+1) '#' ++ ' ' :: hchar :: ct]) =
      [mk "heading" { level := m + 1 }
        ([MNode.text ⟨List.replicate (m+1) '#'⟩ [syntaxMarker "heading"],
          MNode.text " " []] ++ parseInlineWithSyntax (hchar :: ct))] := by
  show parseGo (f + 1 + 1) (.blocks true (((('#' : Char) :: (List.replicate m '#' ++ ' ' :: hchar :: ct))) :: [])) = _
  unfold parseGo
  rw [show isBlank ('#' :: (List.replicate m '#' ++ ' ' :: hchar :: ct)) = false from
    isBlank_hash _]
  rw [if_neg Bool.false_ne_true]
  dsimp only
  rw [parseCodeBlock_hash, matchMathInlineBlock_hash, isMathFence_hash,
      matchContainerStart_hash]
  rw [if_neg Bool.false_ne_true]
  dsimp only
  rw [show matchHeading ('#' :: (List.replicate m '#' ++ ' ' :: hchar :: ct)) =
      some (List.replicate (m+1) '#', hchar :: ct) from
    matchHeading_eval (m+1) hchar ct (Nat.succ_le_succ (Nat.zero_le m)) h6 hws]
  dsimp only
  rw [List.length_replicate]
  rw [show parseGo (f + 1) (.blocks false []) = [] from rfl]

/-- C1 (amended): for an ATX heading line written as 1-6 hashes, exactly
one space, and nonempty all-plain inline content, `parse` yields exactly
the heading node (hash run marked `syntax_marker`, the literal space, the
content run) and concatenating all its text runs in order reproduces the
source line exactly. -/
theorem heading_roundTrip (m : Nat) (hchar : Char) (ct : List Char)
    (h6 : m + 1 ≤ 6) (hws : isWsChar hchar = false)
    (hp : ∀ c ∈ hchar :: ct, plainInline c = true) :
    parse ⟨List.replicate (m+1) '#' ++ ' ' :: hchar :: ct⟩ =
      mk "doc" {} [mk "heading" { level := m + 1 }
        [MNode.text ⟨List.replicate (m+1) '#'⟩ [syntaxMarker "heading"],
         MNode.text " " [], MNode.text ⟨hchar :: ct⟩ []]] ∧
    docConcat (parse ⟨List.replicate (m+1) '#' ++ ' ' :: hchar :: ct⟩) =
      List.replicate (m+1) '#' ++ ' ' :: hchar :: ct := by
  have hline_nl : '\n' ∉ List.replicate (m+1) '#' ++ ' ' :: hchar :: ct := by
    intro hm
    rcases List.mem_append.mp hm with h1 | h1
    · exact absurd (List.eq_of_mem_replicate h1) (by decide)
    · rcases List.mem_cons.mp h1 with h2 | h2
      · exact absurd h2 (by decide)
      · exact absurd (hp _ h2) (by decide)
  have hline_cr : '\r' ∉ List.replicate (m+1) '#' ++ ' ' :: hchar :: ct := by
    intro hm
    rcases List.mem_append.mp hm with h1 | h1
    · exact absurd (List.eq_of_mem_replicate h1) (by decide)
    · rcases List.mem_cons.mp h1 with h2 | h2
      · exact absurd h2 (by decide)
      · exact absurd (hp _ h2) (by decide)
  have hparse : parse ⟨List.replicate (m+1) '#' ++ ' ' :: hchar :: ct⟩ =
      mk "doc" {} [mk "heading" { level := m + 1 }
        [MNode.text ⟨List.replicate (m+1) '#'⟩ [syntaxMarker "heading"],
         MNode.text " " [], MNode.text ⟨hchar :: ct⟩ []]] := by
    unfold parse
    rw [linesOf_single _ hline_nl hline_cr]
    unfold parseBlocks
    rw [show blockFuel [List.replicate (m+1) '#' ++ ' ' :: hchar :: ct] =
      (sizeOfLines [List.replicate (m+1) '#' ++ ' ' :: hchar :: ct] + 2) *
        (sizeOfLines [List.replicate (m+1) '#' ++ ' ' :: hchar :: ct] + 2) + 2 from rfl]
    rw [parseGo_heading_line _ m hchar ct h6 hws]
    rw [parseInline_plain (hchar :: ct) (by simp) hp]
    dsimp only
    split
    · rename_i hcontra
      exact absurd hcontra (by simp)
    · rfl
  refine ⟨hparse, ?_⟩
  rw [hparse]
  show joinChar '\n' ((childrenOf _).map concatNode) = _
  rw [show childrenOf (mk "doc" {} [mk "heading" { level := m + 1 }
        [MNode.text ⟨List.replicate (m+1) '#'⟩ [syntaxMarker "heading"],
         MNode.text " " [], MNode.text ⟨hchar :: ct⟩ []]]) =
      [mk "heading" { level := m + 1 }
        [MNode.text ⟨List.replicate (m+1) '#'⟩ [syntaxMarker "heading"],
         MNode.text " " [], MNode.text ⟨hchar :: ct⟩ []]] from rfl]
  rw [List.map_singleton]
  show concatNode (mk "heading" { level := m + 1 }
        [MNode.text ⟨List.replicate (m+1) '#'⟩ [syntaxMarker "heading"],
         MNode.text " " [], MNode.text ⟨hchar :: ct⟩ []]) = _
  show List.replicate (m+1) '#' ++ (' ' :: ((hchar :: ct) ++ [])) = _
  rw [List.append_nil]

/-- Counterexample to C1 as stated: the heading `#  x` (two spaces)
concatenates back to `# x` (one space) because `parseHeading` always emits
a single literal space, so delimiters are not always preserved
verbatim. -/
theorem heading_concat_counterexample :
    docConcat (parse "#  x") ≠ "#  x".data ∧
    docConcat (parse "#  x") = "# x".data := by
  constructor <;> decide

/-- Instance of the heading round trip on `# x`. -/
theorem heading_roundTrip_witness :
    (0 + 1 ≤ 6) ∧ isWsChar 'x' = false ∧ (∀ c ∈ ('x' :: []), plainInline c = true) ∧
    docConcat (parse ⟨List.replicate (0+1) '#' ++ ' ' :: 'x' :: []⟩) =
      List.replicate (0+1) '#' ++ ' ' :: 'x' :: [] :=
  ⟨by decide, by decide, by decide,
   (heading_roundTrip 0 'x' [] (by decide) (by decide) (by decide)).2⟩

/-! ### C2: the flatten/structure round trip of the source view -/

/-- `MList.ofList` and `MList.toList` are inverse. -/
theorem toList_ofList : ∀ (l : List MNode), (MList.ofList l).toList = l
  | [] => rfl
  | n :: ns => by
    unfold MList.ofList MList.toList
    rw [toList_ofList ns]

theorem ofList_toList : ∀ (cs : MList), MList.ofList cs.toList = cs
  | .nil => rfl
  | .cons c cs => by
    unfold MList.toList MList.ofList
    rw [ofList_toList cs]

/-- Flushing an empty buffer changes nothing. -/
theorem flushCB_empty (st : SVState) (h : st.cb = []) : flushCB st = st := by
  unfold flushCB
  rw [h]

theorem flushTB_empty (st : SVState) (h : st.tb = []) : flushTB st = st := by
  unfold flushTB
  rw [h]

theorem flushHB_empty (st : SVState) (h : st.hb = []) : flushHB st = st := by
  unfold flushHB
  rw [h]

theorem flushMB_empty (st : SVState) (h : st.mb = []) : flushMB st = st := by
  unfold flushMB
  rw [h]

theorem flushAll_clean (st : SVState) (hcb : st.cb = []) (htb : st.tb = [])
    (hhb : st.hb = []) (hmb : st.mb = []) : flushAll st = st := by
  unfold flushAll
  rw [flushCB_empty st hcb, flushTB_empty st htb, flushHB_empty st hhb, flushMB_empty st hmb]

/-- Flushing a state whose only pending group is a rebuildable code group
emits the rebuilt block. -/
theorem flushAll_pend (out : List MNode) (p : MNode) (ps : List MNode) (g : Nat)
    (n₀ : MNode) (ht : transformParagraphsToCodeBlock (p :: ps) = some n₀) :
    flushAll { out := out, cb := p :: ps, cbId := some g } = { out := out ++ [n₀] } := by
  unfold flushAll
  rw [show flushCB { out := out, cb := p :: ps, cbId := some g } =
      { out := out ++ [n₀] } from by
    unfold flushCB
    dsimp only
    rw [ht]]
  rfl

/-- Unpacking `neutralN` for an element node. -/
theorem neutralN_node (t : String) (a : Attrs) (cs : MList)
    (h : neutralN (.node t a cs) = true) :
    t ≠ "code_block" ∧ t ≠ "image" ∧ t ≠ "horizontal_rule" ∧ t ≠ "table" ∧
    t ≠ "html_block" ∧ t ≠ "math_block" ∧ neutralL cs = true := by
  unfold neutralN at h
  simp only [Bool.and_eq_true, Bool.not_eq_true', Bool.or_eq_false_iff,
    beq_eq_false_iff_ne] at h
  tauto

/-- Unpacking `neutralN` for a paragraph. -/
theorem neutralPara_attrs (a : Attrs) (cs : MList)
    (h : neutralN (.node "paragraph" a cs) = true) :
    a.codeBlockId = none ∧ a.tableId = none ∧ a.htmlBlockId = none ∧
    a.mathBlockId = none ∧ a.imageAttrs = none ∧ a.hrSource = false ∧
    neutralL cs = true := by
  unfold neutralN at h
  simp only [Bool.and_eq_true, beq_self_eq_true, Bool.not_true, Bool.false_or,
    beq_iff_eq, Bool.not_eq_true'] at h
  tauto

/-- A neutral paragraph is appended verbatim after a full flush. -/
theorem structPara_neutral (st : SVState) (a : Attrs) (kids : MList)
    (h : neutralN (.node "paragraph" a kids) = true) :
    structPara st (.node "paragraph" a kids) =
      { flushAll st with out := (flushAll st).out ++ [.node "paragraph" a kids] } := by
  obtain ⟨h1, h2, h3, h4, h5, h6, _⟩ := neutralPara_attrs a kids h
  unfold structPara
  rw [show nodeAttrs (MNode.node "paragraph" a kids) = a from rfl]
  dsimp only
  rw [h1]
  dsimp only
  rw [h2]
  dsimp only
  rw [h3]
  dsimp only
  rw [h4]
  dsimp only
  rw [h5]
  rw [if_neg (by simp : ¬((none : Option (String × String × String)) ≠ none))]
  rw [h6]
  rw [if_neg Bool.false_ne_true]

mutual
/-- Structuring leaves neutral subtrees untouched. -/
theorem structNode_neutral : ∀ (n : MNode), neutralN n = true → structNode n = n
  | .text _ _, _ => rfl
  | .node t a cs, h => by
    have hcs : neutralL cs = true := (neutralN_node t a cs h).2.2.2.2.2.2
    unfold structNode
    by_cases hsz : 0 < lsize cs
    · rw [if_pos hsz]
      rw [structFold_neutral cs hcs {} rfl rfl rfl rfl]
      dsimp only
      rw [flushAll_clean _ rfl rfl rfl rfl]
      dsimp only
      rw [List.nil_append, ofList_toList]
      rw [if_neg (by simp : ¬(cs ≠ cs))]
    · rw [if_neg hsz]
theorem structFold_neutral : ∀ (cs : MList), neutralL cs = true →
    ∀ (st : SVState), st.cb = [] → st.tb = [] → st.hb = [] → st.mb = [] →
    structFold cs st = { st with out := st.out ++ cs.toList }
  | .nil, _, st, _, _, _, _ => by
    unfold structFold
    show st = { st with out := st.out ++ [] }
    rw [List.append_nil]
  | .cons c cs, h, st, hcb, htb, hhb, hmb => by
    have hc : neutralN c = true ∧ neutralL cs = true := by
      unfold neutralL at h
      exact Bool.and_eq_true _ _ |>.mp h
    have hfl : flushAll st = st := flushAll_clean st hcb htb hhb hmb
    unfold structFold
    by_cases hpara : nodeType c = "paragraph"
    · rw [if_pos hpara]
      cases c with
      | text s ms => exact absurd hpara (by simp [nodeType])
      | node t a kids =>
        have ht : t = "paragraph" := hpara
        subst ht
        rw [structPara_neutral st a kids hc.1, hfl]
        rw [structFold_neutral cs hc.2
          { st with out := st.out ++ [MNode.node "paragraph" a kids] } hcb htb hhb hmb]
        show _ = { st with out := st.out ++ (MNode.node "paragraph" a kids :: cs.toList) }
        rw [List.append_assoc]
        rfl
    · rw [if_neg hpara]
      dsimp only
      rw [hfl, structNode_neutral c hc.1]
      rw [structFold_neutral cs hc.2 { st with out := st.out ++ [c] } hcb htb hhb hmb]
      show _ = { st with out := st.out ++ (c :: cs.toList) }
      rw [List.append_assoc]
      rfl
end

mutual
/-- Flattening leaves neutral subtrees untouched. -/
theorem flattenNode_neutral : ∀ (n : MNode), neutralN n = true →
    ∀ ctr, flattenNode n ctr = (.unchanged, ctr)
  | .text _ _, _, _ => rfl
  | .node t a cs, h, ctr => by
    obtain ⟨n1, n2, n3, n4, n5, n6, hcs⟩ := neutralN_node t a cs h
    unfold flattenNode
    rw [if_neg n1, if_neg n2, if_neg n3, if_neg n4, if_neg n5, if_neg n6]
    by_cases hsz : 0 < lsize cs
    · rw [if_pos hsz]
      rw [flattenKids_neutral cs hcs ctr]
      rfl
    · rw [if_neg hsz]
theorem flattenKids_neutral : ∀ (cs : MList), neutralL cs = true →
    ∀ ctr, flattenKids cs ctr = (false, cs.toList, ctr)
  | .nil, _, _ => rfl
  | .cons c cs, h, ctr => by
    have hc : neutralN c = true ∧ neutralL cs = true := by
      unfold neutralL at h
      exact Bool.and_eq_true _ _ |>.mp h
    unfold flattenKids
    rw [flattenNode_neutral c hc.1 ctr]
    dsimp only
    rw [flattenKids_neutral cs hc.2 ctr]
    rfl
end

/-- One step of the structuring fold. -/
theorem structFold_cons (c : MNode) (cs : MList) (st : SVState) :
    structFold (.cons c cs) st =
      structFold cs (if nodeType c = "paragraph" then structPara st c
        else { flushAll st with out := (flushAll st).out ++ [structNode c] }) := by
  conv_lhs => rw [structFold.eq_def]
  dsimp only
  by_cases hpara : nodeType c = "paragraph"
  · rw [if_pos hpara, if_pos hpara]
  · rw [if_neg hpara, if_neg hpara]

/-- The structuring fold processes concatenated segments sequentially. -/
theorem structFold_ofList_append (l1 l2 : List MNode) (st : SVState) :
    structFold (MList.ofList (l1 ++ l2)) st =
      structFold (MList.ofList l2) (structFold (MList.ofList l1) st) := by
  induction l1 generalizing st with
  | nil => rfl
  | cons c l1 ih =>
    show structFold (.cons c (MList.ofList (l1 ++ l2))) st =
      structFold (MList.ofList l2) (structFold (.cons c (MList.ofList l1)) st)
    rw [structFold_cons, structFold_cons]
    exact ih _

/-- `split` always produces at least one piece. -/
theorem splitChar_ne_nil (sep : Char) : ∀ (cs : List Char), splitChar sep cs ≠ []
  | [] => by simp [splitChar]
  | c :: cs => by
    unfold splitChar
    dsimp only
    by_cases hc : (c == sep) = true
    · rw [if_pos hc]
      simp
    · rw [if_neg hc]
      cases hr : splitChar sep cs with
      | nil => simp
      | cons p ps => simp

/-- Joining the pieces of a split restores the text. -/
theorem join_split (sep : Char) : ∀ (cs : List Char), joinChar sep (splitChar sep cs) = cs
  | [] => rfl
  | c :: cs => by
    unfold splitChar
    dsimp only
    by_cases hc : (c == sep) = true
    · rw [if_pos hc]
      cases hr : splitChar sep cs with
      | nil => exact absurd hr (splitChar_ne_nil sep cs)
      | cons p ps =>
        show ([] : List Char) ++ sep :: joinChar sep (p :: ps) = c :: cs
        rw [List.nil_append, ← hr, join_split sep cs]
        rw [show sep = c from (beq_iff_eq.mp hc).symm]
    · rw [if_neg hc]
      cases hr : splitChar sep cs with
      | nil => exact absurd hr (splitChar_ne_nil sep cs)
      | cons p ps =>
        dsimp only
        cases ps with
        | nil =>
          show c :: p = c :: cs
          have hj := join_split sep cs
          rw [hr] at hj
          rw [show p = cs from hj]
        | cons q qs =>
          show (c :: p) ++ sep :: joinChar sep (q :: qs) = c :: cs
          have hj := join_split sep cs
          rw [hr] at hj
          rw [List.cons_append]
          rw [show p ++ sep :: joinChar sep (q :: qs) = cs from hj]

/-- `takeWhile` over a list of satisfying characters followed by a stopper. -/
theorem takeWhile_append_stop (p : Char → Bool) :
    ∀ (l1 : List Char) (x : Char) (l2 : List Char),
      (∀ c ∈ l1, p c = true) → p x = false →
      (l1 ++ x :: l2).takeWhile p = l1
  | [], x, l2, _, hx => by simp [List.takeWhile_cons, hx]
  | c :: l1, x, l2, h, hx => by
    rw [List.cons_append, List.takeWhile_cons, h c (List.mem_cons_self _ _)]
    rw [takeWhile_append_stop p l1 x l2 (fun d hd => h d (List.mem_cons_of_mem _ hd)) hx]
    simp

/-- Every paragraph emitted for a code block is stamped with its group id. -/
theorem codeParas_stamped (id total : Nat) (L : String) :
    ∀ (lines : List (List Char)) (idx : Nat), ∀ p ∈ codeParas id total L lines idx,
      nodeType p = "paragraph" ∧ (nodeAttrs p).codeBlockId = some id
  | [], _, p, hp => by simp [codeParas] at hp
  | l :: ls, idx, p, hp => by
    unfold codeParas at hp
    rcases List.mem_cons.mp hp with rfl | h'
    · exact ⟨rfl, rfl⟩
    · exact codeParas_stamped id total L ls (idx+1) p h'

theorem codeParas_ne_nil (id total : Nat) (L : String) (l : List Char)
    (ls : List (List Char)) (idx : Nat) :
    codeParas id total L (l :: ls) idx ≠ [] := by
  unfold codeParas
  simp

theorem lineChildren_text (l : List Char) :
    (textContent (.node "paragraph" {} (lineChildren l))).data = l := by
  unfold lineChildren
  by_cases hl : l.length > 0
  · rw [if_pos hl]
    show ((⟨l⟩ : String) ++ "").data = l
    show l ++ [] = l
    rw [List.append_nil]
  · rw [if_neg hl]
    have : l = [] := List.length_eq_zero.mp (Nat.eq_zero_of_not_pos hl)
    rw [this]
    rfl

/-- The emitted code paragraphs carry the lines verbatim. -/
theorem codeParas_texts (id total : Nat) (L : String) :
    ∀ (lines : List (List Char)) (idx : Nat),
      (codeParas id total L lines idx).map (fun p => (textContent p).data) = lines
  | [], _ => rfl
  | l :: ls, idx => by
    unfold codeParas
    rw [List.map_cons]
    rw [codeParas_texts id total L ls (idx+1)]
    congr 1
    exact lineChildren_text l

/-- The fence regex of `transformParagraphsToCodeBlock` accepts exactly the
text rebuilt by `transformCodeBlockToParagraphs`. -/
theorem fenceMatch_wrap (L content : List Char) (hL : '\n' ∉ L) :
    fenceMatch ('`' :: '`' :: '`' :: ((L ++ '\n' :: content) ++ '\n' :: '`' :: '`' :: '`' :: [])) =
      some (⟨L⟩, ⟨content⟩) := by
  unfold fenceMatch
  rw [if_pos (show startsWithL ['`', '`', '`']
    ('`' :: '`' :: '`' :: ((L ++ '\n' :: content) ++ '\n' :: '`' :: '`' :: '`' :: [])) = true from rfl)]
  dsimp only
  rw [show ('`' :: '`' :: '`' :: ((L ++ '\n' :: content) ++ '\n' :: '`' :: '`' :: '`' :: [])).drop 3 =
    (L ++ '\n' :: content) ++ '\n' :: '`' :: '`' :: '`' :: [] from rfl]
  rw [List.append_assoc, List.cons_append]
  rw [takeWhile_append_stop _ L '\n' (content ++ '\n' :: '`' :: '`' :: '`' :: [])
    (fun c hc => by
      have hb : (c == '\n') = false := beq_eq_false_iff_ne.mpr (fun he => hL (he ▸ hc))
      rw [hb]
      rfl)
    (by rfl)]
  rw [List.drop_left]
  have hlen : (content ++ '\n' :: '`' :: '`' :: '`' :: []).length = content.length + 4 := by
    rw [List.length_append]
    rfl
  have hsub : (content ++ '\n' :: '`' :: '`' :: '`' :: []).length - 4 = content.length := by
    rw [hlen]
    omega
  show (if 4 ≤ (content ++ '\n' :: '`' :: '`' :: '`' :: []).length ∧
      List.drop ((content ++ '\n' :: '`' :: '`' :: '`' :: []).length - 4)
          (content ++ '\n' :: '`' :: '`' :: '`' :: []) = '\n' :: '`' :: '`' :: '`' :: [] then
      some ((⟨L⟩ : String),
        (⟨List.take ((content ++ '\n' :: '`' :: '`' :: '`' :: []).length - 4)
          (content ++ '\n' :: '`' :: '`' :: '`' :: [])⟩ : String))
    else none) = some (⟨L⟩, ⟨content⟩)
  rw [if_pos ⟨by rw [hlen]; exact Nat.le_add_left 4 content.length,
    by rw [hsub]; exact List.drop_left content _⟩]
  rw [hsub, List.take_left]

theorem tptcb_group (id total : Nat) (L : String) (lines : List (List Char))
    (hne : lines ≠ []) :
    transformParagraphsToCodeBlock (codeParas id total L lines 0) =
      (match fenceMatch (joinChar '\n' lines) with
       | some (lang, content) =>
         some (mk "code_block" { language := lang } (textChildren content))
       | none => none) := by
  obtain ⟨l0, lrest, rfl⟩ := List.exists_cons_of_ne_nil hne
  unfold transformParagraphsToCodeBlock
  rw [show codeParas id total L (l0 :: lrest) 0 =
    MNode.node "paragraph"
      { codeBlockId := some id, lineIndex := 0, totalLines := total, language := L }
      (lineChildren l0) :: codeParas id total L lrest (0+1) from rfl]
  dsimp only
  rw [show (MNode.node "paragraph"
      { codeBlockId := some id, lineIndex := 0, totalLines := total, language := L }
      (lineChildren l0) :: codeParas id total L lrest (0+1)).map
        (fun p => (textContent p).data) =
    (codeParas id total L (l0 :: lrest) 0).map (fun p => (textContent p).data) from rfl]
  rw [codeParas_texts]

theorem fence_rebuild_core (a : Attrs) (cs : MList) (id : Nat) (content : List Char)
    (hlnl : '\n' ∉ a.language.data)
    (hcontent : stripTrailingNewlines (textContent (.node "code_block" a cs)).data = content) :
    transformParagraphsToCodeBlock
      (transformCodeBlockToParagraphs (.node "code_block" a cs) id) =
      some (mk "code_block" { language := a.language } (textChildren ⟨content⟩)) := by
  unfold transformCodeBlockToParagraphs
  rw [show nodeAttrs (MNode.node "code_block" a cs) = a from rfl]
  dsimp only
  rw [hcontent]
  rw [tptcb_group _ _ _ _ (splitChar_ne_nil '\n' _)]
  rw [join_split]
  rw [show ("```".data ++ a.language.data ++ '\n' :: content ++ '\n' :: "```".data :
      List Char) =
    '`' :: '`' :: '`' ::
      ((a.language.data ++ '\n' :: content) ++ '\n' :: '`' :: '`' :: '`' :: []) from rfl]
  rw [fenceMatch_wrap a.language.data content hlnl]

/-- A safe code block is rebuilt exactly from its paragraph group. -/
theorem fence_rebuild (a : Attrs) (cs : MList) (id : Nat)
    (h : safeCodeBlock a cs = true) :
    transformParagraphsToCodeBlock
      (transformCodeBlockToParagraphs (.node "code_block" a cs) id) =
      some (.node "code_block" a cs) := by
  unfold safeCodeBlock at h
  rw [Bool.and_eq_true, Bool.and_eq_true] at h
  obtain ⟨⟨ha, hlang⟩, hcs⟩ := h
  have haeq : a = { language := a.language } := beq_iff_eq.mp ha
  have hlnl : '\n' ∉ a.language.data := of_decide_eq_true hlang
  cases cs with
  | nil =>
    rw [fence_rebuild_core a .nil id [] hlnl rfl]
    conv_rhs => rw [haeq]
    rfl
  | cons c rest =>
    cases c with
    | node t' a' cs' => simp at hcs
    | text s ms =>
      cases ms with
      | cons m ms' => simp at hcs
      | nil =>
        cases rest with
        | cons r rs => simp at hcs
        | nil =>
          rw [Bool.and_eq_true] at hcs
          obtain ⟨hs, hstrip⟩ := hcs
          have hsne : s ≠ "" := by
            intro hq
            rw [hq] at hs
            exact absurd hs (by decide)
          have hstrip' : stripTrailingNewlines s.data = s.data := of_decide_eq_true hstrip
          have htc : stripTrailingNewlines
              (textContent (.node "code_block" a (.cons (.text s []) .nil))).data = s.data := by
            show stripTrailingNewlines ((s ++ "").data) = s.data
            rw [show (s ++ "").data = s.data ++ [] from rfl, List.append_nil]
            exact hstrip'
          rw [fence_rebuild_core a _ id s.data hlnl htc]
          rw [show (⟨s.data⟩ : String) = s from rfl]
          unfold textChildren
          rw [if_neg hsne]
          conv_rhs => rw [haeq]
          rfl

/-- The lazy search finds the smallest witness. -/
theorem firstFrom_eq (p : Nat → Bool) (k : Nat) :
    ∀ (start fuel : Nat), start ≤ k → k < start + fuel →
      (∀ j, start ≤ j → j < k → p j = false) → p k = true →
      firstFrom p start fuel = some k
  | start, 0, hs, hlt, _, _ => by omega
  | start, fuel+1, hs, hlt, hmin, hk => by
    unfold firstFrom
    by_cases he : start = k
    · subst he
      rw [hk]
      rfl
    · have h1 : p start = false := hmin start (le_refl _) (lt_of_le_of_ne hs he)
      rw [h1]
      show firstFrom p (start+1) fuel = some k
      exact firstFrom_eq p k (start+1) fuel (by omega) (by omega)
        (fun j hj hjk => hmin j (by omega) hjk) hk

theorem imgTail_noTitle : imgTailStrict [')'] = some none := rfl

theorem imgTail_title (title : String) (htitc : ∀ c ∈ title.data, (c == '"') = false) :
    imgTailStrict (' ' :: '"' :: (title.data ++ '"' :: ')' :: [])) = some (some title.data) := by
  unfold imgTailStrict
  simp only [show List.takeWhile isWsChar (' ' :: '"' :: (title.data ++ '"' :: ')' :: [])) =
      [' '] from rfl,
    List.length_cons, List.length_nil, List.drop_succ_cons, List.drop_zero,
    takeWhile_append_stop (fun c => !(c == '"')) title.data '"' (')' :: [])
      (fun c hc => by show (!(c == '"')) = true; rw [htitc c hc]; rfl) rfl,
    List.drop_left]
  rfl

theorem imgTailStrict_head (c : Char) (rest : List Char) (hws : isWsChar c = false)
    (hp : c ≠ ')') : imgTailStrict (c :: rest) = none := by
  unfold imgTailStrict
  rw [List.takeWhile_cons, hws]
  rw [if_neg Bool.false_ne_true]
  dsimp only
  rw [if_neg (by simp : ¬(1 ≤ ([] : List Char).length))]
  dsimp only
  rw [if_neg (fun h => hp (by injection h))]

theorem data_append (a b : String) : (a ++ b).data = a.data ++ b.data := rfl

/-- The image-paragraph regex on the literal text written by
`transformImageToParagraph`. -/
theorem imageParaMatch_core (alt src : String) (tail : List Char) (tit : Option (List Char))
    (hsrcne : src ≠ "")
    (hsw : ∀ c ∈ src.data, isWsChar c = false)
    (hsp : ∀ c ∈ src.data, c ≠ ')')
    (haltc : ∀ c ∈ alt.data, (c == ']') = false)
    (htail : imgTailStrict tail = some tit) :
    imageParaMatch ('!' :: '[' :: (alt.data ++ ']' :: '(' :: (src.data ++ tail))) =
      some (alt, src, (tit.map (fun t => (⟨t⟩ : String))).getD "") := by
  have haltw : ∀ c ∈ alt.data, (fun c => !(c == ']')) c = true := fun c hc => by
    show (!(c == ']')) = true
    rw [haltc c hc]
    rfl
  have hnl : '\n' ∉ src.data := fun hm => by
    have := hsw '\n' hm
    exact absurd this (by decide)
  have hdne : src.data ≠ [] := by
    intro hd
    apply hsrcne
    rw [show src = (⟨src.data⟩ : String) from rfl, hd]
  show (match (alt.data ++ ']' :: '(' :: (src.data ++ tail)).drop
        ((alt.data ++ ']' :: '(' :: (src.data ++ tail)).takeWhile
          (fun c => !(c == ']'))).length with
     | ']' :: '(' :: r2 =>
       match firstFrom (fun k => (imgTailStrict (r2.drop k)).isSome &&
           decide ('\n' ∉ r2.take k)) 1
           (('!' :: '[' :: (alt.data ++ ']' :: '(' :: (src.data ++ tail))).length + 1) with
       | some k =>
         match imgTailStrict (r2.drop k) with
         | some tit2 =>
           some ((⟨(alt.data ++ ']' :: '(' :: (src.data ++ tail)).takeWhile
               (fun c => !(c == ']'))⟩ : String), (⟨r2.take k⟩ : String),
             match tit2 with | some t => (⟨t⟩ : String) | none => "")
         | none => none
       | none => none
     | _ => none) = some (alt, src, (tit.map (fun t => (⟨t⟩ : String))).getD "")
  rw [takeWhile_append_stop (fun c => !(c == ']')) alt.data ']'
    ('(' :: (src.data ++ tail)) haltw rfl]
  rw [List.drop_left]
  show (match firstFrom (fun k => (imgTailStrict ((src.data ++ tail).drop k)).isSome &&
      decide ('\n' ∉ (src.data ++ tail).take k)) 1
      (('!' :: '[' :: (alt.data ++ ']' :: '(' :: (src.data ++ tail))).length + 1) with
    | some k =>
      match imgTailStrict ((src.data ++ tail).drop k) with
      | some tit2 =>
        some ((⟨alt.data⟩ : String), (⟨(src.data ++ tail).take k⟩ : String),
          match tit2 with | some t => (⟨t⟩ : String) | none => "")
      | none => none
    | none => none) = some (alt, src, (tit.map (fun t => (⟨t⟩ : String))).getD "")
  rw [firstFrom_eq (fun k => (imgTailStrict ((src.data ++ tail).drop k)).isSome &&
      decide ('\n' ∉ (src.data ++ tail).take k)) src.data.length 1
      (('!' :: '[' :: (alt.data ++ ']' :: '(' :: (src.data ++ tail))).length + 1)
      (Nat.one_le_iff_ne_zero.mpr (fun h0 => hdne (List.length_eq_zero.mp h0)))
      (by simp only [List.length_cons, List.length_append]; omega)
      (fun j h1 h2 => by
        show ((imgTailStrict ((src.data ++ tail).drop j)).isSome &&
          decide ('\n' ∉ (src.data ++ tail).take j)) = false
        rw [List.drop_append_of_le_length (le_of_lt h2)]
        rw [List.drop_eq_getElem_cons h2]
        rw [List.cons_append]
        rw [imgTailStrict_head _ _ (hsw _ (List.getElem_mem h2)) (hsp _ (List.getElem_mem h2))]
        rfl)
      (by
        show ((imgTailStrict ((src.data ++ tail).drop src.data.length)).isSome &&
          decide ('\n' ∉ (src.data ++ tail).take src.data.length)) = true
        rw [List.drop_left, List.take_left, htail, decide_eq_true hnl]
        rfl)]
  dsimp only
  rw [List.drop_left, htail]
  dsimp only
  rw [List.take_left]
  cases tit with
  | none => rfl
  | some t => rfl

theorem bnot_true (b : Bool) (h : (!b) = true) : b = false := by
  cases b
  · rfl
  · exact absurd h (by decide)

/-- The horizontal-rule paragraph is converted back to a horizontal rule. -/
theorem hr_rebuild : transformParagraphToHr transformHrToParagraph =
    some (mk "horizontal_rule" {} []) := by decide

/-- A safe image is rebuilt exactly from its literal paragraph. -/
theorem image_rebuild (a : Attrs) (h : safeImage a .nil = true) :
    transformParagraphToImage (transformImageToParagraph (.node "image" a .nil)) =
      some (.node "image" a .nil) := by
  unfold safeImage at h
  rw [Bool.and_eq_true, Bool.and_eq_true, Bool.and_eq_true, Bool.and_eq_true,
    Bool.and_eq_true] at h
  obtain ⟨⟨⟨⟨⟨ha, _⟩, hsrc⟩, hsrcl⟩, haltl⟩, htitl⟩ := h
  have haeq : a = { src := a.src, alt := a.alt, title := a.title } := beq_iff_eq.mp ha
  have hsrcne : a.src ≠ "" := bne_iff_ne.mp hsrc
  have hsw : ∀ c ∈ a.src.data, isWsChar c = false := by
    intro c hc
    have hb := List.all_eq_true.mp hsrcl c hc
    exact (Bool.or_eq_false_iff.mp (bnot_true _ hb)).1
  have hsp : ∀ c ∈ a.src.data, c ≠ ')' := by
    intro c hc
    have hb := List.all_eq_true.mp hsrcl c hc
    exact beq_eq_false_iff_ne.mp (Bool.or_eq_false_iff.mp (bnot_true _ hb)).2
  have haltc : ∀ c ∈ a.alt.data, (c == ']') = false := by
    intro c hc
    exact bnot_true _ (List.all_eq_true.mp haltl c hc)
  have htitc : ∀ c ∈ a.title.data, (c == '"') = false := by
    intro c hc
    exact bnot_true _ (List.all_eq_true.mp htitl c hc)
  unfold transformImageToParagraph
  rw [show nodeAttrs (MNode.node "image" a .nil) = a from rfl]
  dsimp only
  unfold transformParagraphToImage
  rw [if_neg (by simp [nodeAttrs] : ¬((nodeAttrs (MNode.node "paragraph"
    { imageAttrs := some (a.src, a.alt, a.title) }
    (.cons (txt ("![" ++ a.alt ++ "](" ++ a.src ++
      (if a.title ≠ "" then " \"" ++ a.title ++ "\"" else "") ++ ")")) .nil))).imageAttrs = none))]
  by_cases ht : a.title = ""
  · rw [if_neg (by rw [ht]; simp : ¬(a.title ≠ ""))]
    have hS : (textContent (MNode.node "paragraph"
        { imageAttrs := some (a.src, a.alt, a.title) }
        (.cons (txt ("![" ++ a.alt ++ "](" ++ a.src ++ "" ++ ")")) .nil))).data =
        '!' :: '[' :: (a.alt.data ++ ']' :: '(' :: (a.src.data ++ [')'])) := by
      show (("![" ++ a.alt ++ "](" ++ a.src ++ "" ++ ")") ++ "").data = _
      simp only [data_append, List.append_assoc, List.cons_append, List.nil_append,
        List.append_nil,
        show ("![" : String).data = ['!', '['] from rfl,
        show ("](" : String).data = [']', '('] from rfl,
        show (")" : String).data = [')'] from rfl,
        show ("" : String).data = [] from rfl]
    rw [hS]
    rw [imageParaMatch_core a.alt a.src [')'] none hsrcne hsw hsp haltc imgTail_noTitle]
    dsimp only [Option.map, Option.getD]
    conv_rhs => rw [haeq]
    rw [ht]
    rfl
  · rw [if_pos ht]
    have hS : (textContent (MNode.node "paragraph"
        { imageAttrs := some (a.src, a.alt, a.title) }
        (.cons (txt ("![" ++ a.alt ++ "](" ++ a.src ++
          (" \"" ++ a.title ++ "\"") ++ ")")) .nil))).data =
        '!' :: '[' :: (a.alt.data ++ ']' :: '(' ::
          (a.src.data ++ (' ' :: '"' :: (a.title.data ++ '"' :: ')' :: [])))) := by
      show (("![" ++ a.alt ++ "](" ++ a.src ++ (" \"" ++ a.title ++ "\"") ++ ")") ++ "").data = _
      simp only [data_append, List.append_assoc, List.cons_append, List.nil_append,
        List.append_nil,
        show ("![" : String).data = ['!', '['] from rfl,
        show ("](" : String).data = [']', '('] from rfl,
        show (")" : String).data = [')'] from rfl,
        show (" \"" : String).data = [' ', '"'] from rfl,
        show ("\"" : String).data = ['"'] from rfl]
    rw [hS]
    rw [imageParaMatch_core a.alt a.src (' ' :: '"' :: (a.title.data ++ '"' :: ')' :: []))
      (some a.title.data) hsrcne hsw hsp haltc (imgTail_title a.title htitc)]
    dsimp only [Option.map, Option.getD]
    conv_rhs => rw [haeq]
    rfl

theorem flattenNode_code (a : Attrs) (cs : MList) (ctr : Nat) :
    flattenNode (.node "code_block" a cs) ctr =
      (.many (transformCodeBlockToParagraphs (.node "code_block" a cs) ctr), ctr + 1) := rfl

theorem flattenNode_image (a : Attrs) (cs : MList) (ctr : Nat) :
    flattenNode (.node "image" a cs) ctr =
      (.many [transformImageToParagraph (.node "image" a cs)], ctr) := rfl

theorem flattenNode_hr (a : Attrs) (cs : MList) (ctr : Nat) :
    flattenNode (.node "horizontal_rule" a cs) ctr =
      (.many [transformHrToParagraph], ctr) := rfl

/-- The four shapes of a safe top-level child. -/
theorem safeChild_cases (c : MNode) (h : safeChild c = true) :
    neutralN c = true ∨
    (∃ a cs, c = .node "code_block" a cs ∧ safeCodeBlock a cs = true) ∨
    (∃ a, c = .node "image" a .nil ∧ safeImage a .nil = true) ∨
    (c = .node "horizontal_rule" {} .nil) := by
  unfold safeChild at h
  rcases Bool.or_eq_true _ _ |>.mp h with h1 | h1
  · exact Or.inl h1
  · right
    split at h1
    · rename_i a2 cs2
      exact Or.inl ⟨a2, cs2, rfl, h1⟩
    · rename_i a2 cs2
      right
      left
      have hnil : cs2 = .nil := by
        unfold safeImage at h1
        rw [Bool.and_eq_true, Bool.and_eq_true, Bool.and_eq_true, Bool.and_eq_true,
          Bool.and_eq_true] at h1
        exact beq_iff_eq.mp h1.1.1.1.1.2
      subst hnil
      exact ⟨a2, rfl, h1⟩
    · rename_i a2 cs2
      right
      right
      rw [Bool.and_eq_true] at h1
      rw [beq_iff_eq.mp h1.1, beq_iff_eq.mp h1.2]
    · simp at h1

/-- A code-group paragraph with a new id flushes the pending group and
starts its own buffer. -/
theorem structPara_codeStart_pend (out : List MNode) (pB : MNode) (psB : List MNode)
    (gB g : Nat) (hne : gB ≠ g) (n₀ : MNode)
    (ht : transformParagraphsToCodeBlock (pB :: psB) = some n₀)
    (A : Attrs) (kids : MList) (hA : A.codeBlockId = some g) :
    structPara { out := out, cb := pB :: psB, cbId := some gB } (.node "paragraph" A kids) =
      { out := out ++ [n₀], cb := [.node "paragraph" A kids], cbId := some g } := by
  unfold structPara
  rw [show nodeAttrs (MNode.node "paragraph" A kids) = A from rfl]
  dsimp only
  rw [hA]
  dsimp only
  rw [flushTB_empty _ rfl, flushHB_empty _ rfl, flushMB_empty _ rfl]
  rw [if_pos ⟨by simp, by intro he; injection he with he'; exact hne he'⟩]
  rw [show flushCB { out := out, cb := pB :: psB, cbId := some gB } =
      { out := out ++ [n₀] } from by
    unfold flushCB
    dsimp only
    rw [ht]]
  rfl

/-- The paragraph branch for a paragraph with no group stamp. -/
theorem structPara_plain (st : SVState) (flOut : List MNode)
    (hfl : flushAll st = { out := flOut }) (c : MNode)
    (h1 : (nodeAttrs c).codeBlockId = none) (h2 : (nodeAttrs c).tableId = none)
    (h3 : (nodeAttrs c).htmlBlockId = none) (h4 : (nodeAttrs c).mathBlockId = none) :
    structPara st c =
      (if (nodeAttrs c).imageAttrs ≠ none then
        { out := flOut ++ [(transformParagraphToImage c).getD c] }
      else if (nodeAttrs c).hrSource then
        { out := flOut ++ [(transformParagraphToHr c).getD c] }
      else { out := flOut ++ [c] }) := by
  unfold structPara
  dsimp only
  rw [h1]
  dsimp only
  rw [h2]
  dsimp only
  rw [h3]
  dsimp only
  rw [h4]
  dsimp only
  rw [hfl]

/-- Structuring the flattened segments of safe children restores exactly the
children, from a clean state or with a rebuildable pending code group. -/
theorem struct_flatten_chain :
    ∀ (children : List MNode), (∀ c ∈ children, safeChild c = true) →
    ∀ (ctr : Nat) (out : List MNode),
      (flushAll (structFold (MList.ofList (flattenKids (MList.ofList children) ctr).2.1)
          { out := out }) = { out := out ++ children }) ∧
      (∀ (g : Nat) (p : MNode) (ps : List MNode) (n₀ : MNode), g < ctr →
        transformParagraphsToCodeBlock (p :: ps) = some n₀ →
        flushAll (structFold (MList.ofList (flattenKids (MList.ofList children) ctr).2.1)
          { out := out, cb := p :: ps, cbId := some g }) =
          { out := out ++ n₀ :: children }) := by
  intro children
  induction children with
  | nil =>
    intro _ ctr out
    constructor
    · show flushAll (structFold (MList.ofList []) { out := out }) = _
      rw [show structFold (MList.ofList []) { out := out } = { out := out } from rfl]
      rw [flushAll_clean _ rfl rfl rfl rfl]
      rw [List.append_nil]
    · intro g p ps n₀ _ ht
      show flushAll (structFold (MList.ofList [])
        { out := out, cb := p :: ps, cbId := some g }) = _
      rw [show structFold (MList.ofList []) { out := out, cb := p :: ps, cbId := some g } =
        { out := out, cb := p :: ps, cbId := some g } from rfl]
      rw [flushAll_pend out p ps g n₀ ht]
  | cons c rest ih =>
    intro hsafe ctr out
    have hcsafe := hsafe c (List.mem_cons_self _ _)
    have hrest : ∀ x ∈ rest, safeChild x = true :=
      fun x hx => hsafe x (List.mem_cons_of_mem _ hx)
    rcases safeChild_cases c hcsafe with hn | ⟨a, cs, rfl, hcb⟩ | ⟨a, rfl, him⟩ | rfl
    · rcases hfr : flattenKids (MList.ofList rest) ctr with ⟨ch, restSegs, ctr2⟩
      have hfk : flattenKids (MList.ofList (c :: rest)) ctr = (ch, c :: restSegs, ctr2) := by
        show flattenKids (.cons c (MList.ofList rest)) ctr = _
        unfold flattenKids
        rw [flattenNode_neutral c hn ctr]
        dsimp only
        rw [hfr]
      have hstepA : ∀ (st : SVState) (flOut : List MNode), flushAll st = { out := flOut } →
          structFold (MList.ofList (c :: restSegs)) st =
            structFold (MList.ofList restSegs) { out := flOut ++ [c] } := by
        intro st flOut hfl
        show structFold (.cons c (MList.ofList restSegs)) st = _
        rw [structFold_cons]
        by_cases hpara : nodeType c = "paragraph"
        · rw [if_pos hpara]
          cases c with
          | text s ms => exact absurd hpara (by simp [nodeType])
          | node t aa kids =>
            have htp : t = "paragraph" := hpara
            subst htp
            rw [structPara_neutral st aa kids hn, hfl]
        · rw [if_neg hpara]
          rw [structNode_neutral c hn, hfl]
      constructor
      · rw [hfk]
        dsimp only
        rw [hstepA { out := out } out (flushAll_clean _ rfl rfl rfl rfl)]
        have hA := (ih hrest ctr (out ++ [c])).1
        rw [hfr] at hA
        dsimp only at hA
        exact hA.trans (by rw [List.append_assoc]; rfl)
      · intro g p ps n₀ hg ht
        rw [hfk]
        dsimp only
        rw [hstepA { out := out, cb := p :: ps, cbId := some g } (out ++ [n₀])
          (flushAll_pend out p ps g n₀ ht)]
        have hA := (ih hrest ctr ((out ++ [n₀]) ++ [c])).1
        rw [hfr] at hA
        dsimp only at hA
        exact hA.trans (by simp)
    · rcases hfr : flattenKids (MList.ofList rest) (ctr + 1) with ⟨ch, restSegs, ctr2⟩
      have hfk : flattenKids (MList.ofList (MNode.node "code_block" a cs :: rest)) ctr =
          (true, transformCodeBlockToParagraphs (.node "code_block" a cs) ctr ++ restSegs,
            ctr2) := by
        show flattenKids (.cons _ (MList.ofList rest)) ctr = _
        unfold flattenKids
        rw [flattenNode_code a cs ctr]
        dsimp only
        rw [hfr]
      obtain ⟨l0, lrest, hl⟩ := List.exists_cons_of_ne_nil (splitChar_ne_nil '\n'
        ("```".data ++ a.language.data ++ '\n' ::
          stripTrailingNewlines (textContent (MNode.node "code_block" a cs)).data ++
          '\n' :: "```".data))
      have hSEG : transformCodeBlockToParagraphs (.node "code_block" a cs) ctr =
          codeParas ctr (l0 :: lrest).length a.language (l0 :: lrest) 0 := by
        unfold transformCodeBlockToParagraphs
        rw [show nodeAttrs (MNode.node "code_block" a cs) = a from rfl]
        dsimp only
        rw [hl]
      have hreb : transformParagraphsToCodeBlock
          (codeParas ctr (l0 :: lrest).length a.language (l0 :: lrest) 0) =
          some (.node "code_block" a cs) := by
        rw [← hSEG]
        exact fence_rebuild a cs ctr hcb
      have hcp : codeParas ctr (l0 :: lrest).length a.language (l0 :: lrest) 0 =
          MNode.node "paragraph"
            { codeBlockId := some ctr, lineIndex := 0,
              totalLines := (l0 :: lrest).length, language := a.language }
            (lineChildren l0) ::
          codeParas ctr (l0 :: lrest).length a.language lrest (0 + 1) := rfl
      have hstamp := codeParas_stamped ctr (l0 :: lrest).length a.language (l0 :: lrest) 0
      have ihB := fun outArg => (ih hrest (ctr + 1) outArg).2 ctr
        (MNode.node "paragraph"
          { codeBlockId := some ctr, lineIndex := 0,
            totalLines := (l0 :: lrest).length, language := a.language }
          (lineChildren l0))
        (codeParas ctr (l0 :: lrest).length a.language lrest (0 + 1))
        (.node "code_block" a cs) (Nat.lt_succ_self ctr) (by rw [← hcp]; exact hreb)
      constructor
      · rw [hfk]
        dsimp only
        rw [hSEG, structFold_ofList_append]
        rw [structFold_codeGroup _ ctr { out := out } hstamp rfl rfl rfl (Or.inl rfl)]
        have hB := ihB out
        rw [hfr] at hB
        dsimp only at hB
        exact hB
      · intro gB pB psB n₀B hgB htB
        rw [hfk]
        dsimp only
        rw [hSEG, structFold_ofList_append]
        rw [show MList.ofList (codeParas ctr (l0 :: lrest).length a.language (l0 :: lrest) 0) =
          .cons (MNode.node "paragraph"
            { codeBlockId := some ctr, lineIndex := 0,
              totalLines := (l0 :: lrest).length, language := a.language }
            (lineChildren l0))
            (MList.ofList (codeParas ctr (l0 :: lrest).length a.language lrest (0 + 1)))
          from by rw [hcp]; rfl]
        rw [structFold_cons]
        rw [if_pos (by rfl : nodeType (MNode.node "paragraph"
          { codeBlockId := some ctr, lineIndex := 0,
            totalLines := (l0 :: lrest).length, language := a.language }
          (lineChildren l0)) = "paragraph")]
        rw [structPara_codeStart_pend out pB psB gB ctr (Nat.ne_of_lt hgB) n₀B htB
          { codeBlockId := some ctr, lineIndex := 0,
            totalLines := (l0 :: lrest).length, language := a.language }
          (lineChildren l0) rfl]
        rw [structFold_codeGroup _ ctr
          { out := out ++ [n₀B],
            cb := [MNode.node "paragraph"
              { codeBlockId := some ctr, lineIndex := 0,
                totalLines := (l0 :: lrest).length, language := a.language }
              (lineChildren l0)], cbId := some ctr }
          (codeParas_stamped ctr (l0 :: lrest).length a.language lrest (0 + 1))
          rfl rfl rfl (Or.inr rfl)]
        rw [ite_self]
        have hB := ihB (out ++ [n₀B])
        rw [hfr] at hB
        dsimp only at hB
        exact hB.trans (by simp)
    · rcases hfr : flattenKids (MList.ofList rest) ctr with ⟨ch, restSegs, ctr2⟩
      have hfk : flattenKids (MList.ofList (MNode.node "image" a .nil :: rest)) ctr =
          (true, transformImageToParagraph (.node "image" a .nil) :: restSegs, ctr2) := by
        show flattenKids (.cons _ (MList.ofList rest)) ctr = _
        unfold flattenKids
        rw [flattenNode_image a .nil ctr]
        dsimp only
        rw [hfr]
        rfl
      have hstep : ∀ (st : SVState) (flOut : List MNode), flushAll st = { out := flOut } →
          structFold (MList.ofList
            (transformImageToParagraph (.node "image" a .nil) :: restSegs)) st =
            structFold (MList.ofList restSegs)
              { out := flOut ++ [.node "image" a .nil] } := by
        intro st flOut hfl
        show structFold (.cons _ (MList.ofList restSegs)) st = _
        rw [structFold_cons]
        rw [if_pos (by rfl :
          nodeType (transformImageToParagraph (.node "image" a .nil)) = "paragraph")]
        rw [structPara_plain st flOut hfl
          (transformImageToParagraph (.node "image" a .nil)) rfl rfl rfl rfl]
        rw [if_pos (by simp [transformImageToParagraph, nodeAttrs] :
          (nodeAttrs (transformImageToParagraph (.node "image" a .nil))).imageAttrs ≠ none)]
        rw [image_rebuild a him]
        rfl
      constructor
      · rw [hfk]
        dsimp only
        rw [hstep { out := out } out (flushAll_clean _ rfl rfl rfl rfl)]
        have hA := (ih hrest ctr (out ++ [MNode.node "image" a .nil])).1
        rw [hfr] at hA
        dsimp only at hA
        exact hA.trans (by rw [List.append_assoc]; rfl)
      · intro g p ps n₀ hg ht
        rw [hfk]
        dsimp only
        rw [hstep { out := out, cb := p :: ps, cbId := some g } (out ++ [n₀])
          (flushAll_pend out p ps g n₀ ht)]
        have hA := (ih hrest ctr ((out ++ [n₀]) ++ [MNode.node "image" a .nil])).1
        rw [hfr] at hA
        dsimp only at hA
        exact hA.trans (by simp)
    · rcases hfr : flattenKids (MList.ofList rest) ctr with ⟨ch, restSegs, ctr2⟩
      have hfk : flattenKids (MList.ofList
          (MNode.node "horizontal_rule" {} .nil :: rest)) ctr =
          (true, transformHrToParagraph :: restSegs, ctr2) := by
        show flattenKids (.cons _ (MList.ofList rest)) ctr = _
        unfold flattenKids
        rw [flattenNode_hr {} .nil ctr]
        dsimp only
        rw [hfr]
        rfl
      have hstep : ∀ (st : SVState) (flOut : List MNode), flushAll st = { out := flOut } →
          structFold (MList.ofList (transformHrToParagraph :: restSegs)) st =
            structFold (MList.ofList restSegs)
              { out := flOut ++ [.node "horizontal_rule" {} .nil] } := by
        intro st flOut hfl
        show structFold (.cons _ (MList.ofList restSegs)) st = _
        rw [structFold_cons]
        rw [if_pos (by rfl : nodeType transformHrToParagraph = "paragraph")]
        rw [structPara_plain st flOut hfl transformHrToParagraph rfl rfl rfl rfl]
        rw [if_neg (by simp [transformHrToParagraph, nodeAttrs] :
          ¬((nodeAttrs transformHrToParagraph).imageAttrs ≠ none))]
        rw [if_pos (by rfl : (nodeAttrs transformHrToParagraph).hrSource = true)]
        rw [hr_rebuild]
        rfl
      constructor
      · rw [hfk]
        dsimp only
        rw [hstep { out := out } out (flushAll_clean _ rfl rfl rfl rfl)]
        have hA := (ih hrest ctr (out ++ [MNode.node "horizontal_rule" {} .nil])).1
        rw [hfr] at hA
        dsimp only at hA
        exact hA.trans (by rw [List.append_assoc]; rfl)
      · intro g p ps n₀ hg ht
        rw [hfk]
        dsimp only
        rw [hstep { out := out, cb := p :: ps, cbId := some g } (out ++ [n₀])
          (flushAll_pend out p ps g n₀ ht)]
        have hA := (ih hrest ctr ((out ++ [n₀]) ++ [MNode.node "horizontal_rule" {} .nil])).1
        rw [hfr] at hA
        dsimp only at hA
        exact hA.trans (by simp)

/-- A flattened code block yields at least one paragraph. -/
theorem tcbp_ne_nil (n : MNode) (id : Nat) : transformCodeBlockToParagraphs n id ≠ [] := by
  unfold transformCodeBlockToParagraphs
  dsimp only
  obtain ⟨l0, lrest, hl⟩ := List.exists_cons_of_ne_nil (splitChar_ne_nil '\n'
    ("```".data ++ (nodeAttrs n).language.data ++ '\n' ::
      stripTrailingNewlines (textContent n).data ++ '\n' :: "```".data))
  rw [hl]
  simp [codeParas]

theorem neutralL_false_ne_nil (cs : MList) (h : neutralL cs = false) : cs.toList ≠ [] := by
  cases cs with
  | nil => exact absurd h (by decide)
  | cons c rest => simp [MList.toList]

/-- With a non-neutral safe child, flattening reports a change and a
nonempty replacement. -/
theorem flattenKids_changed :
    ∀ (cs : MList), (∀ c ∈ cs.toList, safeChild c = true) → neutralL cs = false →
    ∀ (ctr : Nat), (flattenKids cs ctr).1 = true ∧ (flattenKids cs ctr).2.1 ≠ []
  | .nil, _, hne, _ => absurd hne (by decide)
  | .cons c rest, hs, hne, ctr => by
    have hcsafe := hs c (by simp [MList.toList])
    have hrs : ∀ x ∈ rest.toList, safeChild x = true :=
      fun x hx => hs x (by simp [MList.toList, hx])
    rcases safeChild_cases c hcsafe with hn | ⟨a, cs2, rfl, hcb⟩ | ⟨a, rfl, him⟩ | rfl
    · have hrne : neutralL rest = false := by
        unfold neutralL at hne
        rcases Bool.and_eq_false_iff.mp hne with h1 | h1
        · exact absurd hn (by rw [h1]; exact Bool.false_ne_true)
        · exact h1
      obtain ⟨ih1, ih2⟩ := flattenKids_changed rest hrs hrne ctr
      rcases hfr : flattenKids rest ctr with ⟨ch, restSegs, ctr2⟩
      rw [hfr] at ih1 ih2
      show ((flattenKids (.cons c rest) ctr).1 = true ∧ _)
      unfold flattenKids
      rw [flattenNode_neutral c hn ctr]
      dsimp only
      rw [hfr]
      dsimp only
      exact ⟨ih1, by simp⟩
    · rcases hfr : flattenKids rest (ctr + 1) with ⟨ch, restSegs, ctr2⟩
      show ((flattenKids (.cons _ rest) ctr).1 = true ∧ _)
      unfold flattenKids
      rw [flattenNode_code a cs2 ctr]
      dsimp only
      rw [hfr]
      dsimp only
      refine ⟨rfl, ?_⟩
      intro hq
      rcases List.append_eq_nil.mp hq with ⟨h1, _⟩
      exact tcbp_ne_nil _ ctr h1
    · rcases hfr : flattenKids rest ctr with ⟨ch, restSegs, ctr2⟩
      show ((flattenKids (.cons _ rest) ctr).1 = true ∧ _)
      unfold flattenKids
      rw [flattenNode_image a .nil ctr]
      dsimp only
      rw [hfr]
      dsimp only
      exact ⟨rfl, by simp⟩
    · rcases hfr : flattenKids rest ctr with ⟨ch, restSegs, ctr2⟩
      show ((flattenKids (.cons _ rest) ctr).1 = true ∧ _)
      unfold flattenKids
      rw [flattenNode_hr {} .nil ctr]
      dsimp only
      rw [hfr]
      dsimp only
      exact ⟨rfl, by simp⟩

/-- The restricted round trip for a document of safe children. -/
theorem source_view_roundTrip_core (t : String) (a : Attrs) (cs : MList) (seed : Nat)
    (h : ∀ c ∈ cs.toList, safeChild c = true) :
    convertParagraphsToBlocks (convertBlocksToParagraphs (.node t a cs) seed) =
      .node t a cs := by
  cases hneu : neutralL cs with
  | true =>
    unfold convertBlocksToParagraphs
    dsimp only
    rw [flattenKids_neutral cs hneu seed]
    dsimp only
    rw [if_neg (by simp)]
    unfold convertParagraphsToBlocks
    dsimp only
    rw [structFold_neutral cs hneu {} rfl rfl rfl rfl]
    rw [flushAll_clean _ rfl rfl rfl rfl]
    cases hnil : cs.toList with
    | nil =>
      rw [if_neg (by simp)]
    | cons x xs =>
      rw [if_pos (by simp)]
      rw [show ({} : SVState).out ++ x :: xs = cs.toList from by rw [hnil]; rfl]
      rw [ofList_toList]
  | false =>
    obtain ⟨hch, hsegne⟩ := flattenKids_changed cs h hneu seed
    rcases hfk : flattenKids cs seed with ⟨changed, segs, ctrE⟩
    rw [hfk] at hch hsegne
    dsimp only at hch hsegne
    unfold convertBlocksToParagraphs
    dsimp only
    rw [hfk]
    dsimp only
    rw [if_pos ⟨hch, hsegne⟩]
    unfold convertParagraphsToBlocks
    dsimp only
    have hchain := (struct_flatten_chain cs.toList h seed []).1
    rw [ofList_toList, hfk] at hchain
    dsimp only at hchain
    rw [hchain]
    dsimp only
    rw [if_pos (by
      rw [List.nil_append]
      exact neutralL_false_ne_nil cs hneu)]
    rw [List.nil_append, ofList_toList]


/-- Counterexample to C2 as stated: parsing a fenced code block whose content
ends in a blank line keeps the trailing newline in the tree, but
`transformCodeBlockToParagraphs` strips trailing newlines before rebuilding
the fence, so structuring back yields a different tree. -/
theorem source_view_roundTrip_counterexample :
    convertParagraphsToBlocks (convertBlocksToParagraphs (parse "```js\na\n\n```")) ≠
      parse "```js\na\n\n```" := by decide

/-- C2 (amended): flattening with `convertBlocksToParagraphs` and structuring
back with `convertParagraphsToBlocks` restores the tree exactly for documents
whose top-level children are untouched kinds (no flattened node type and no
group-stamped paragraph), code blocks in the image of the parser grammar whose
content has no trailing newline, images with well-formed attributes, and
horizontal rules; in particular a parsed document with a heading, a fenced
code block and a horizontal rule survives the round trip unchanged.  Trailing newlines in
code-block content are the exception established by the counterexample. -/
theorem source_view_roundTrip (t : String) (a : Attrs) (cs : MList) (seed : Nat)
    (h : ∀ c ∈ cs.toList, safeChild c = true) :
    (convertParagraphsToBlocks (convertBlocksToParagraphs (.node t a cs) seed) =
      .node t a cs) ∧
    convertParagraphsToBlocks (convertBlocksToParagraphs
        (parse "# hi\n\n```js\nlet x = 1\n```\n\n---")) =
      parse "# hi\n\n```js\nlet x = 1\n```\n\n---" :=
  ⟨source_view_roundTrip_core t a cs seed h, by decide⟩

/-- Instance of the restricted round trip: a paragraph, a safe code block and
a horizontal rule. -/
theorem source_view_roundTrip_witness :
    (∀ c ∈ (MList.ofList [mk "paragraph" {} [txt "hi"],
        MNode.node "code_block" { language := "js" } (.cons (.text "let x = 1" []) .nil),
        MNode.node "horizontal_rule" {} .nil]).toList, safeChild c = true) ∧
    convertParagraphsToBlocks (convertBlocksToParagraphs
        (MNode.node "doc" {} (MList.ofList [mk "paragraph" {} [txt "hi"],
          MNode.node "code_block" { language := "js" } (.cons (.text "let x = 1" []) .nil),
          MNode.node "horizontal_rule" {} .nil])) 0) =
      MNode.node "doc" {} (MList.ofList [mk "paragraph" {} [txt "hi"],
        MNode.node "code_block" { language := "js" } (.cons (.text "let x = 1" []) .nil),
        MNode.node "horizontal_rule" {} .nil]) :=
  ⟨by decide, (source_view_roundTrip "doc" {} (MList.ofList [mk "paragraph" {} [txt "hi"],
      MNode.node "code_block" { language := "js" } (.cons (.text "let x = 1" []) .nil),
      MNode.node "horizontal_rule" {} .nil]) 0 (by decide)).1⟩
